import Mathlib

/-!
# urd — verification of the spec against the source

Shallow embedding of the `urd` daemon's core components
(`src/interpreter.rs`, `src/block_executor.rs`, `src/controller.rs`,
`src/rtde.rs`, `src/monitoring.rs`) and proofs settling the frozen claims.

Conventions used throughout:
* Rust `String` / `&str` values are modelled as `List Char` (`Str`); the
  character classes `\w`, `\d`, whitespace are modelled on their ASCII
  fragment (every string the daemon exchanges with the robot is ASCII).
* Machine integers are `Nat` / `Int` with explicit bounds or `% 2 ^ w`
  where the code can overflow.
* `f64` values that only travel through the codec are modelled by their
  64-bit patterns (`Nat < 2^64`); `f64` values used arithmetically
  (Rodrigues rotation, pose gating) are modelled as exact reals
  respectively rationals.
* Socket I/O is modelled by oracles: a list of reply lines consumed in
  order, and cursor/flag sequences indexed by poll step.  Loops that the
  code runs without bound are given explicit fuel.
-/

namespace Urd

/-- Strings exchanged with the robot, modelled as lists of characters. -/
abbrev Str := List Char

/-- ASCII fragment of the regex class `\w` (`[0-9A-Za-z_]`).  The Rust
`regex` crate uses the Unicode word class, which agrees with this on
ASCII input. -/
def isWordChar (c : Char) : Bool :=
  (('0' ≤ c && c ≤ '9') || ('a' ≤ c && c ≤ 'z') || ('A' ≤ c && c ≤ 'Z') || c = '_')

/-- The regex class `\d` (ASCII digits). -/
def isDigitChar (c : Char) : Bool :=
  '0' ≤ c && c ≤ '9'

/-- ASCII fragment of Rust `char::is_whitespace` (the Unicode
`White_Space` property restricted to ASCII). -/
def isSpaceChar (c : Char) : Bool :=
  c = ' ' || c = '\t' || c = '\n' || c = '\x0b' || c = '\x0c' || c = '\r'

/-- Numeric value of a digit string (most significant digit first). -/
def digitsToNat (ds : Str) : Nat :=
  ds.foldl (fun a c => a * 10 + (c.toNat - '0'.toNat)) 0

/-- Rust `str::parse::<u32>` on a string of decimal digits: succeeds iff
the string is a non-empty digit string whose value fits in `u32`. -/
def parseU32 (ds : Str) : Option Nat :=
  if ds ≠ [] ∧ ds.all isDigitChar ∧ digitsToNat ds < 2 ^ 32 then some (digitsToNat ds)
  else none

/-! ## InterpreterClient reply parsing (`src/interpreter.rs`)

`InterpreterClient::new` compiles the pattern `(\w+):\W+(\d+)?` and
`execute_command` runs `Regex::captures` (leftmost-first search) on the
raw reply.  For this particular pattern backtracking never changes the
outcome — `\w+` cannot usefully give back characters because the next
atom is the non-word character `:`, and after the greedy `\W+` run the
optional `(\d+)?` always succeeds — so a match attempt at a given start
position is the deterministic greedy scan `tryMatchAt` below, and the
search tries successive start positions. -/

/-- One match attempt of `(\w+):\W+(\d+)?` anchored at the head of `s`,
returning the two capture groups (status word, optional digit group). -/
def tryMatchAt (s : Str) : Option (Str × Option Str) :=
  let w := s.takeWhile isWordChar
  let r1 := s.dropWhile isWordChar
  if w = [] then none
  else if r1.head? = some ':' then
    let r2 := r1.tail
    let nw := r2.takeWhile (fun c => !isWordChar c)
    let r3 := r2.dropWhile (fun c => !isWordChar c)
    if nw = [] then none
    else
      let d := r3.takeWhile isDigitChar
      some (w, if d = [] then none else some d)
  else none

/-- `Regex::captures` for the pattern `(\w+):\W+(\d+)?`: leftmost-first
search over start positions. -/
def stateReplyCaptures : Str → Option (Str × Option Str)
  | [] => none
  | c :: rest =>
    match tryMatchAt (c :: rest) with
    | some r => some r
    | none => stateReplyCaptures rest

/-- `CommandResult` of `InterpreterClient::execute_command`
(`src/interpreter.rs`). -/
structure CmdResult where
  id : Nat
  raw_reply : Str
  rejected : Bool
  deriving Repr, DecidableEq

/-- The reply-parsing tail of `InterpreterClient::execute_command`
applied to a raw reply line: `none` models the
`Invalid interpreter reply format` protocol error; `discard` status
yields `id = 0, rejected = true`; otherwise the digit group is parsed
as `u32` with `unwrap_or(0)` and `rejected = false`. -/
def parseReply (raw : Str) : Option CmdResult :=
  match stateReplyCaptures raw with
  | none => none
  | some (status, dopt) =>
    if status = "discard".toList then
      some { id := 0, raw_reply := raw, rejected := true }
    else
      some { id := ((dopt.bind parseU32).getD 0), raw_reply := raw, rejected := false }

/-! ### The spec's reply grammar

The spec (§6) gives the reply grammar as `^(\w+):\s*(\d+)?$`.  The
following decompositions are written from the spec's words, to be
compared with the code's parser.  The greedy splits are forced: `\w+`
must stop exactly at the `:`, and `\s*` must swallow every whitespace
character because a digit is not whitespace, so a matching line has a
unique decomposition. -/

/-- Decompose a line according to the spec grammar `^(\w+):\s*(\d+)?$`:
maximal word run, literal colon, maximal whitespace run, remainder all
digits.  Modelled from the spec. -/
def specGrammarParts (s : Str) : Option (Str × Str × Str) :=
  let w := s.takeWhile isWordChar
  let r1 := s.dropWhile isWordChar
  if w = [] then none
  else if r1.head? = some ':' then
    let ws := r1.tail.takeWhile isSpaceChar
    let d := r1.tail.dropWhile isSpaceChar
    if d.all isDigitChar then some (w, ws, d) else none
  else none

/-- The line matches the spec grammar `^(\w+):\s*(\d+)?$`. -/
def matchesSpecGrammar (s : Str) : Bool :=
  (specGrammarParts s).isSome

/-- Decompose a line according to the amended grammar `^(\w+):\s+(\d+)?$`
(at least one whitespace character after the colon, which is what the
code's `\W+` demands on a line of this shape). -/
def amendedGrammarParts (s : Str) : Option (Str × Str × Str) :=
  match specGrammarParts s with
  | some (w, ws, d) => if ws = [] then none else some (w, ws, d)
  | none => none

/-! ### Character-run helper lemmas -/

theorem takeWhile_all_eq {p : Char → Bool} {l : Str} (h : ∀ c ∈ l, p c = true) :
    l.takeWhile p = l := by
  induction l with
  | nil => rfl
  | cons c t ih =>
    have hc : p c = true := h c (List.mem_cons_self c t)
    simp [List.takeWhile, hc, ih (fun x hx => h x (List.mem_cons_of_mem c hx))]

theorem dropWhile_all_eq {p : Char → Bool} {l : Str} (h : ∀ c ∈ l, p c = true) :
    l.dropWhile p = [] := by
  induction l with
  | nil => rfl
  | cons c t ih =>
    have hc : p c = true := h c (List.mem_cons_self c t)
    simp [List.dropWhile, hc, ih (fun x hx => h x (List.mem_cons_of_mem c hx))]

theorem takeWhile_append_stop {p : Char → Bool} {a b : Str}
    (ha : ∀ c ∈ a, p c = true) (hb : ∀ x r, b = x :: r → p x = false) :
    (a ++ b).takeWhile p = a := by
  induction a with
  | nil =>
    cases b with
    | nil => rfl
    | cons x r => simp [List.takeWhile, hb x r rfl]
  | cons c t ih =>
    have hc : p c = true := ha c (List.mem_cons_self c t)
    simp [List.takeWhile, hc, ih (fun x hx => ha x (List.mem_cons_of_mem c hx))]

theorem dropWhile_append_stop {p : Char → Bool} {a b : Str}
    (ha : ∀ c ∈ a, p c = true) (hb : ∀ x r, b = x :: r → p x = false) :
    (a ++ b).dropWhile p = b := by
  induction a with
  | nil =>
    cases b with
    | nil => rfl
    | cons x r => simp [List.dropWhile, hb x r rfl]
  | cons c t ih =>
    have hc : p c = true := ha c (List.mem_cons_self c t)
    simp [List.dropWhile, hc, ih (fun x hx => ha x (List.mem_cons_of_mem c hx))]

theorem isSpaceChar_not_word {c : Char} (h : isSpaceChar c = true) :
    isWordChar c = false := by
  simp only [isSpaceChar, Bool.or_eq_true, decide_eq_true_eq] at h
  rcases h with ((((h | h) | h) | h) | h) | h <;> subst h <;> decide

theorem isDigitChar_word {c : Char} (h : isDigitChar c = true) :
    isWordChar c = true := by
  simp only [isDigitChar, Bool.and_eq_true, decide_eq_true_eq] at h
  simp [isWordChar, h.1, h.2]

/-- Structure of a line matching the amended grammar. -/
theorem amendedGrammarParts_shape {s w ws d : Str}
    (h : amendedGrammarParts s = some (w, ws, d)) :
    s = w ++ ':' :: (ws ++ d) ∧ w ≠ [] ∧ (∀ c ∈ w, isWordChar c = true) ∧
      ws ≠ [] ∧ (∀ c ∈ ws, isSpaceChar c = true) ∧ (∀ c ∈ d, isDigitChar c = true) := by
  unfold amendedGrammarParts at h
  rcases hspec : specGrammarParts s with _ | ⟨w', ws', d'⟩ <;> rw [hspec] at h
  · exact absurd h (by simp)
  · dsimp only at h
    by_cases hws : ws' = []
    · rw [if_pos hws] at h; exact absurd h (by simp)
    rw [if_neg hws] at h
    injection h with h
    have hw : w = w' := (congrArg (fun p => p.1) h).symm
    have hws2 : ws = ws' := (congrArg (fun p => p.2.1) h).symm
    have hd : d = d' := (congrArg (fun p => p.2.2) h).symm
    subst hw; subst hws2; subst hd
    -- now read off the structure from `hspec`
    simp only [specGrammarParts] at hspec
    by_cases h1 : s.takeWhile isWordChar = []
    · rw [if_pos h1] at hspec; exact absurd hspec (by simp)
    rw [if_neg h1] at hspec
    by_cases h2 : (s.dropWhile isWordChar).head? = some ':'
    · rw [if_pos h2] at hspec
      by_cases h3 : ((s.dropWhile isWordChar).tail.dropWhile isSpaceChar).all isDigitChar
      · rw [if_pos h3] at hspec
        injection hspec with hspec
        have hw : w = s.takeWhile isWordChar := (congrArg (fun p => p.1) hspec).symm
        have hwsv : ws = (s.dropWhile isWordChar).tail.takeWhile isSpaceChar :=
          (congrArg (fun p => p.2.1) hspec).symm
        have hdv : d = (s.dropWhile isWordChar).tail.dropWhile isSpaceChar :=
          (congrArg (fun p => p.2.2) hspec).symm
        have hdrop : s.dropWhile isWordChar = ':' :: (s.dropWhile isWordChar).tail := by
          rcases hdr : s.dropWhile isWordChar with _ | ⟨x, t⟩
          · rw [hdr] at h2; exact absurd h2 (by simp)
          · rw [hdr] at h2
            simp only [List.head?] at h2
            injection h2 with h2
            rw [h2]
            rfl
        refine ⟨?_, ?_, ?_, hws, ?_, ?_⟩
        · rw [hw, hwsv, hdv, List.takeWhile_append_dropWhile, ← hdrop]
          exact (List.takeWhile_append_dropWhile ..).symm
        · rw [hw]; exact h1
        · intro c hc; rw [hw] at hc; exact List.mem_takeWhile_imp hc
        · intro c hc; rw [hwsv] at hc; exact List.mem_takeWhile_imp hc
        · intro c hc; rw [hdv] at hc
          exact (List.all_eq_true.mp h3) c hc
      · rw [if_neg h3] at hspec; exact absurd hspec (by simp)
    · rw [if_neg h2] at hspec; exact absurd hspec (by simp)

/-- The code's match attempt on a line of the amended shape. -/
theorem tryMatchAt_amended {w ws d : Str} (hw : w ≠ [])
    (hWw : ∀ c ∈ w, isWordChar c = true) (hws : ws ≠ [])
    (hWs : ∀ c ∈ ws, isSpaceChar c = true) (hWd : ∀ c ∈ d, isDigitChar c = true) :
    tryMatchAt (w ++ ':' :: (ws ++ d)) =
      some (w, if d = [] then none else some d) := by
  have hcol : ∀ (x : Char) (r : Str), (':' :: (ws ++ d) : Str) = x :: r →
      isWordChar x = false := by
    intro x r hx
    have : x = ':' := (List.head_eq_of_cons_eq hx.symm)
    subst this; decide
  have hwsnw : ∀ c ∈ ws, (!isWordChar c) = true := fun c hc => by
    rw [isSpaceChar_not_word (hWs c hc)]; rfl
  have hdw : ∀ (x : Char) (r : Str), d = x :: r → (!isWordChar x) = false := by
    intro x r hx
    have hx' : x ∈ d := by rw [hx]; exact List.mem_cons_self x r
    rw [isDigitChar_word (hWd x hx')]; rfl
  unfold tryMatchAt
  rw [takeWhile_append_stop hWw hcol, dropWhile_append_stop hWw hcol]
  simp only [if_neg hw, List.head?, List.tail_cons, ite_true]
  rw [takeWhile_append_stop hwsnw hdw, dropWhile_append_stop hwsnw hdw,
    takeWhile_all_eq hWd]
  simp [hws]

theorem stateReplyCaptures_of_tryMatchAt {s : Str} {r : Str × Option Str}
    (hne : s ≠ []) (h : tryMatchAt s = some r) : stateReplyCaptures s = some r := by
  cases s with
  | nil => exact absurd rfl hne
  | cons c t => unfold stateReplyCaptures; rw [h]

/-- C2 (amended): every interpreter reply line matching
`^(\w+):\s+(\d+)?$` — the spec's grammar strengthened to require at
least one whitespace character after the colon, which is what the code
regex's `\W+` demands there — is parsed successfully by
`InterpreterClient::execute_command`: status `discard` yields `id = 0`
and `rejected = true`; any other status yields `rejected = false` and
the digit group's value as the assigned id when it is present and fits
in `u32` (0 otherwise). -/
theorem interpreter_reply_parse_amended {s w ws d : Str}
    (h : amendedGrammarParts s = some (w, ws, d)) :
    parseReply s = some
      { id := if w ≠ "discard".toList ∧ digitsToNat d < 2 ^ 32 then digitsToNat d else 0,
        raw_reply := s,
        rejected := decide (w = "discard".toList) } := by
  obtain ⟨hs, hw, hWw, hws, hWs, hWd⟩ := amendedGrammarParts_shape h
  have hsne : s ≠ [] := by
    rw [hs]
    rcases w with _ | ⟨c, t⟩
    · exact absurd rfl hw
    · simp
  have hcap : stateReplyCaptures s = some (w, if d = [] then none else some d) := by
    rw [hs] at hsne ⊢
    exact stateReplyCaptures_of_tryMatchAt hsne (tryMatchAt_amended hw hWw hws hWs hWd)
  unfold parseReply
  rw [hcap]
  dsimp only
  by_cases hdisc : w = "discard".toList
  · rw [if_pos hdisc]
    have : (if w ≠ "discard".toList ∧ digitsToNat d < 2 ^ 32 then digitsToNat d else 0) = 0 := by
      rw [if_neg (by tauto)]
    rw [this, decide_eq_true hdisc]
  · rw [if_neg hdisc]
    have hid : ((if d = [] then none else some d).bind parseU32).getD 0 =
        (if w ≠ "discard".toList ∧ digitsToNat d < 2 ^ 32 then digitsToNat d else 0) := by
      rcases hd : d with _ | ⟨c, t⟩
      · rw [if_pos rfl]
        have h0 : digitsToNat ([] : Str) = 0 := rfl
        by_cases hfit : digitsToNat ([] : Str) < 2 ^ 32
        · rw [if_pos ⟨hdisc, hfit⟩, h0]; rfl
        · rw [if_neg (by tauto)]; rfl
      · rw [← hd]
        have hdne : d ≠ [] := by rw [hd]; simp
        rw [if_neg hdne]
        by_cases hfit : digitsToNat d < 2 ^ 32
        · have hp : parseU32 d = some (digitsToNat d) := by
            unfold parseU32
            rw [if_pos ⟨hdne, List.all_eq_true.mpr hWd, hfit⟩]
          rw [if_pos ⟨hdisc, hfit⟩]
          show (parseU32 d).getD 0 = digitsToNat d
          rw [hp]
          rfl
        · have hp : parseU32 d = none := by
            unfold parseU32
            rw [if_neg (by tauto)]
          rw [if_neg (by tauto)]
          show (parseU32 d).getD 0 = 0
          rw [hp]
          rfl
    rw [hid, decide_eq_false hdisc]

/-- Witness for C2's amended theorem: an accepted reply and a discard
reply, evaluated concretely. -/
theorem interpreter_reply_parse_amended_witness :
    parseReply "ack: 42".toList = some
      { id := if "ack".toList ≠ "discard".toList ∧ digitsToNat "42".toList < 2 ^ 32
                then digitsToNat "42".toList else 0,
        raw_reply := "ack: 42".toList,
        rejected := decide ("ack".toList = "discard".toList) } ∧
    parseReply "discard: ".toList = some
      { id := if "discard".toList ≠ "discard".toList ∧ digitsToNat "".toList < 2 ^ 32
                then digitsToNat "".toList else 0,
        raw_reply := "discard: ".toList,
        rejected := decide ("discard".toList = "discard".toList) } :=
  ⟨@interpreter_reply_parse_amended "ack: 42".toList "ack".toList " ".toList "42".toList
     (by decide),
   @interpreter_reply_parse_amended "discard: ".toList "discard".toList " ".toList
     "".toList (by decide)⟩

/-- Counterexample to C2 as stated: the bare reply `discard:` matches
the spec's grammar `^(\w+):\s*(\d+)?$`, yet `execute_command` fails to
parse it (the code regex `(\w+):\W+(\d+)?` requires a non-word
character after the colon), returning the
`Invalid interpreter reply format` protocol error instead of
`id = 0, rejected = true`. -/
theorem interpreter_reply_spec_grammar_counterexample :
    matchesSpecGrammar "discard:".toList = true ∧
      parseReply "discard:".toList = none := by
  constructor <;> rfl

/-- C9: if an interpreter reply is matched by the code's regex, its
status token is not `discard`, and the digit group is absent or does
not parse as `u32`, then `execute_command` returns `id = 0` with
`rejected = false`; since a rejected (`discard`) reply also carries
`id = 0`, the two outcomes are indistinguishable by the id alone. -/
theorem interpreter_reply_id_zero_ambiguity :
    (∀ s status dopt, stateReplyCaptures s = some (status, dopt) →
      status ≠ "discard".toList → dopt.bind parseU32 = none →
      parseReply s = some { id := 0, raw_reply := s, rejected := false }) ∧
    (∀ s dopt, stateReplyCaptures s = some ("discard".toList, dopt) →
      parseReply s = some { id := 0, raw_reply := s, rejected := true }) := by
  constructor
  · intro s status dopt hcap hst hparse
    unfold parseReply
    rw [hcap]
    dsimp only
    rw [if_neg hst, hparse]
    rfl
  · intro s dopt hcap
    unfold parseReply
    rw [hcap]
    dsimp only
    rw [if_pos rfl]

/-- Witness for C9: the reply `ack: ` (digit group absent) and the
reply `ack: 99999999999` (digit group too large for `u32`) both come
back as `id = 0, rejected = false`, exactly like `discard: `. -/
theorem interpreter_reply_id_zero_ambiguity_witness :
    parseReply "ack: ".toList =
      some { id := 0, raw_reply := "ack: ".toList, rejected := false } ∧
    parseReply "ack: 99999999999".toList =
      some { id := 0, raw_reply := "ack: 99999999999".toList, rejected := false } ∧
    parseReply "discard: ".toList =
      some { id := 0, raw_reply := "discard: ".toList, rejected := true } :=
  ⟨interpreter_reply_id_zero_ambiguity.1 _ "ack".toList none (by decide) (by decide)
     (by decide),
   interpreter_reply_id_zero_ambiguity.1 _ "ack".toList (some "99999999999".toList)
     (by decide) (by decide) (by decide),
   interpreter_reply_id_zero_ambiguity.2 _ none (by decide)⟩

/-! ## BlockExecutor (`src/block_executor.rs`)

`execute_urscript_and_wait` splits the submission into blocks, submits
each over the interpeter socket, appends the `time(0)` sentinel and
polls the execution cursor.  The interpreter socket is modelled by an
oracle: the list of raw reply lines the robot will send, consumed one
per `execute_command`.  The shutdown flag is a sequence indexed by the
monitor-poll step, and the poll loop gets explicit fuel. -/

/-- Rust `str::lines` helper: split at `'\n'`, keeping a trailing empty
piece (adjusted below). -/
def splitLinesAux : Str → List Str
  | [] => [[]]
  | c :: rest =>
    if c = '\n' then [] :: splitLinesAux rest
    else
      match splitLinesAux rest with
      | [] => [[c]]
      | l :: ls => (c :: l) :: ls

/-- Rust `str::lines`: split at `'\n'` (final line ending optional),
stripping one trailing `'\r'` from each line. -/
def rustLines (s : Str) : List Str :=
  match s with
  | [] => []
  | _ =>
    let parts := splitLinesAux s
    let parts := if s.getLast? = some '\n' then parts.dropLast else parts
    parts.map (fun l => if l.getLast? = some '\r' then l.dropLast else l)

/-- Rust `str::trim` (ASCII whitespace model). -/
def trimAscii (s : Str) : Str :=
  ((s.dropWhile isSpaceChar).reverse.dropWhile isSpaceChar).reverse

/-- The block list of `execute_urscript_and_wait`: lines, trimmed, with
empty lines and `#` comment lines dropped. -/
def preprocessBlocks (urscript : Str) : List Str :=
  ((rustLines urscript).map trimAscii).filter
    (fun l => !(l = [] : Bool) && !(l.head? = some '#' : Bool))

/-- `URScriptStatus` (`src/block_executor.rs`). -/
inductive URStatus where
  | sent
  | completed
  | failed (msg : Str)
  deriving Repr, DecidableEq

/-- `URScriptResult` (`src/block_executor.rs`). -/
structure URScriptResultL where
  id : Nat
  urscript : Str
  status : URStatus
  termination_id : Option Nat
  deriving Repr, DecidableEq

/-- Outcome of the block-submission loop of `execute_urscript_and_wait`. -/
inductive SubmitOut where
  | err
  | rejectedAt (n : Nat) (firstId : Nat) (raw : Str) (replies' : List Str) (sent : List Str)
  | ok (ids : List Nat) (firstId : Nat) (replies' : List Str) (sent : List Str)
  deriving Repr, DecidableEq

/-- The per-block submission loop of `execute_urscript_and_wait`:
submit each block in order, recording the first block's id and every
assigned id, returning early on the first rejected block.  `n` is the
0-based index of the next block, `sent` accumulates every line written
to the interpreter socket. -/
def submitBlocksAux : List Str → List Str → Nat → Nat → List Nat → List Str → SubmitOut
  | [], replies, _, firstId, ids, sent => .ok ids firstId replies sent
  | b :: rest, replies, n, firstId, ids, sent =>
    match replies with
    | [] => .err
    | r :: replies' =>
      match parseReply r with
      | none => .err
      | some res =>
        let firstId' := if n = 0 then res.id else firstId
        if res.rejected then
          .rejectedAt (n + 1) firstId' r replies' (sent ++ [b])
        else
          submitBlocksAux rest replies' (n + 1) firstId' (ids ++ [res.id]) (sent ++ [b])

/-- The block-monitoring poll loop
(`wait_for_completion_with_block_monitoring`): each iteration sends
`statelastexecuted` (consuming one oracle reply; a missing or
unparseable reply is `unwrap_or(0)`), returns `true` once the cursor
reaches `finalWaitId`, `false` when the shutdown flag is observed, and
otherwise sleeps and repeats.  Returns the remaining oracle and the
lines sent; `none` models a run that exhausts its fuel. -/
def monitorLoop (finalWaitId : Nat) (shutdown : Nat → Bool) :
    Nat → Nat → List Str → Option (Bool × List Str × List Str)
  | _, 0, _ => none
  | t, fuel + 1, replies =>
    let lastExec :=
      match replies with
      | [] => 0
      | r :: _ => ((parseReply r).map CmdResult.id).getD 0
    let replies' := replies.tail
    if finalWaitId ≤ lastExec then some (true, replies', ["statelastexecuted".toList])
    else if shutdown t then some (false, replies', ["statelastexecuted".toList])
    else
      match monitorLoop finalWaitId shutdown (t + 1) fuel replies' with
      | none => none
      | some (done, rem, msent) => some (done, rem, "statelastexecuted".toList :: msent)

/-- `BlockExecutor::execute_urscript_and_wait`, with the interpreter
socket replaced by the oracle `replies` and the result paired with the
full list of lines sent to the interpreter.  `some (.error ())` models
the call returning `Err` (empty submission, missing reply or protocol
error), `none` models a poll loop that outlives its fuel. -/
def executeURScriptAndWait (urscript : Str) (replies : List Str)
    (shutdown : Nat → Bool) (fuel : Nat) :
    Option (Except Unit (URScriptResultL × List Str)) :=
  let blocks := preprocessBlocks urscript
  if blocks = [] then some (.error ())
  else
    match submitBlocksAux blocks replies 0 0 [] [] with
    | .err => some (.error ())
    | .rejectedAt n firstId raw _ sent =>
      some (.ok ({ id := firstId, urscript := urscript,
                   status := .failed ("Block ".toList ++ Nat.toDigits 10 n ++
                     " rejected: ".toList ++ raw),
                   termination_id := none }, sent))
    | .ok ids firstId replies' sent =>
      match replies' with
      | [] => some (.error ())
      | r :: replies'' =>
        match parseReply r with
        | none => some (.error ())
        | some tres =>
          let sent' := sent ++ ["time(0)".toList]
          let terminationId := if tres.rejected then none else some tres.id
          let waitId :=
            match terminationId with
            | some tid => tid
            | none => ids.foldl max 0
          match monitorLoop waitId shutdown 0 fuel replies'' with
          | none => none
          | some (done, _, msent) =>
            some (.ok ({ id := firstId, urscript := urscript,
                         status := if done then .completed
                                   else .failed "Interrupted by shutdown signal".toList,
                         termination_id := terminationId }, sent' ++ msent))

/-- A reply parsed as rejected always carries `id = 0`. -/
theorem parseReply_rejected_id_zero {r : Str} {res : CmdResult}
    (h : parseReply r = some res) (hrej : res.rejected = true) : res.id = 0 := by
  unfold parseReply at h
  rcases hcap : stateReplyCaptures r with _ | ⟨status, dopt⟩ <;> rw [hcap] at h
  · exact absurd h (by simp)
  · dsimp only at h
    by_cases hd : status = "discard".toList
    · rw [if_pos hd] at h
      injection h with h
      rw [← h]
    · rw [if_neg hd] at h
      injection h with h
      rw [← h] at hrej
      exact absurd hrej (by simp)

/-- Behaviour of the submission loop when blocks `1..N-1` are accepted
and block `N` is rejected: it stops at block `N` with the first block's
id, the rejecting raw reply, and exactly the first `N` blocks sent. -/
theorem submitBlocksAux_rejected (rej : Str) (restR : List Str) (res : CmdResult)
    (hrej : parseReply rej = some res) (hres : res.rejected = true) :
    ∀ (accR : List Str),
      (∀ r ∈ accR, ∃ q, parseReply r = some q ∧ q.rejected = false) →
      ∀ (blocks : List Str) (n firstId : Nat) (ids : List Nat) (sent : List Str),
        accR.length + 1 ≤ blocks.length →
        submitBlocksAux blocks (accR ++ rej :: restR) n firstId ids sent =
          .rejectedAt (n + accR.length + 1)
            (if n = 0 then
               (match accR with
                | [] => res.id
                | r0 :: _ => ((parseReply r0).map CmdResult.id).getD 0)
             else firstId)
            rej restR (sent ++ blocks.take (accR.length + 1)) := by
  intro accR
  induction accR with
  | nil =>
    intro _ blocks n firstId ids sent hlen
    rcases blocks with _ | ⟨b, brest⟩
    · simp at hlen
    · show submitBlocksAux (b :: brest) (rej :: restR) n firstId ids sent = _
      unfold submitBlocksAux
      dsimp only
      rw [hrej]
      dsimp only
      rw [if_pos hres]
      simp
  | cons r0 accT ih =>
    intro hacc blocks n firstId ids sent hlen
    rcases blocks with _ | ⟨b, brest⟩
    · simp at hlen
    obtain ⟨q0, hq0, hq0r⟩ := hacc r0 (List.mem_cons_self r0 accT)
    have haccT : ∀ r ∈ accT, ∃ q, parseReply r = some q ∧ q.rejected = false :=
      fun r hr => hacc r (List.mem_cons_of_mem r0 hr)
    show submitBlocksAux (b :: brest) (r0 :: (accT ++ rej :: restR)) n firstId ids sent = _
    unfold submitBlocksAux
    dsimp only
    rw [hq0]
    dsimp only
    rw [if_neg (by rw [hq0r]; simp)]
    have hlen' : accT.length + 1 ≤ brest.length := by
      simp only [List.length_cons] at hlen; omega
    rw [ih haccT brest (n + 1) (if n = 0 then q0.id else firstId) (ids ++ [q0.id])
      (sent ++ [b]) hlen']
    have hnz : ¬(n + 1 = 0) := by omega
    rw [if_neg hnz]
    have hidx : n + 1 + accT.length + 1 = n + (accT.length + 1) + 1 := by omega
    rw [hidx]
    by_cases hn : n = 0
    · simp [hn, hq0, List.take_succ_cons]
    · simp [hn, List.take_succ_cons]

/-- C3: if interpreter execution of block `N` (1-based) of a URScript
submission reports rejected (blocks before it accepted), then
`execute_urscript_and_wait` returns `Failed("Block N rejected: <raw>")`
with `termination_id = None` and `id` equal to the first block's ID
(0 when block 1 itself is the rejected one, since a rejected reply
parses to id 0), and the lines sent to the interpreter are exactly
blocks `1..N` — no `time(0)` sentinel, no later block. -/
theorem urscript_rejection_result (urscript : Str) (shutdown : Nat → Bool) (fuel : Nat)
    (accR : List Str) (rej : Str) (restR : List Str) (res : CmdResult)
    (hacc : ∀ r ∈ accR, ∃ q, parseReply r = some q ∧ q.rejected = false)
    (hrej : parseReply rej = some res) (hres : res.rejected = true)
    (hlen : accR.length + 1 ≤ (preprocessBlocks urscript).length) :
    ∃ firstId,
      executeURScriptAndWait urscript (accR ++ rej :: restR) shutdown fuel =
        some (.ok ({ id := firstId, urscript := urscript,
                     status := .failed ("Block ".toList ++
                       Nat.toDigits 10 (accR.length + 1) ++ " rejected: ".toList ++ rej),
                     termination_id := none },
                   (preprocessBlocks urscript).take (accR.length + 1))) ∧
      (accR = [] → firstId = 0) ∧
      (∀ r0 t0 q0, accR = r0 :: t0 → parseReply r0 = some q0 → firstId = q0.id) := by
  have hbne : preprocessBlocks urscript ≠ [] := by
    intro hempty
    rw [hempty] at hlen
    simp at hlen
  have hsub := submitBlocksAux_rejected rej restR res hrej hres accR hacc
    (preprocessBlocks urscript) 0 0 [] [] hlen
  cases accR with
  | nil =>
    refine ⟨res.id, ?_, ?_, ?_⟩
    · unfold executeURScriptAndWait
      rw [if_neg hbne, hsub]
      simp
    · intro _
      exact parseReply_rejected_id_zero hrej hres
    · intro r0 t0 q0 h0 _
      exact absurd h0 (by simp)
  | cons r0 t0 =>
    refine ⟨((parseReply r0).map CmdResult.id).getD 0, ?_, ?_, ?_⟩
    · unfold executeURScriptAndWait
      rw [if_neg hbne, hsub]
      simp
    · intro h0
      exact absurd h0 (by simp)
    · intro r0' t0' q0 h0 hq0
      have hr0 : r0 = r0' := by
        injection h0
      subst hr0
      rw [hq0]
      rfl

/-- Witness for C3: a two-block submission whose second block is
rejected with the raw reply `discard: `. -/
theorem urscript_rejection_result_witness :
    ∃ firstId,
      executeURScriptAndWait "movej([0,0,0,0,0,0])\nbadline()\n".toList
          ("ack: 5".toList :: "discard: ".toList :: []) (fun _ => false) 7 =
        some (.ok ({ id := firstId,
                     urscript := "movej([0,0,0,0,0,0])\nbadline()\n".toList,
                     status := .failed ("Block ".toList ++ Nat.toDigits 10 2 ++
                       " rejected: ".toList ++ "discard: ".toList),
                     termination_id := none },
                   (preprocessBlocks "movej([0,0,0,0,0,0])\nbadline()\n".toList).take 2)) ∧
      (["ack: 5".toList] = ([] : List Str) → firstId = 0) ∧
      (∀ r0 t0 q0, ["ack: 5".toList] = r0 :: t0 → parseReply r0 = some q0 →
        firstId = q0.id) :=
  urscript_rejection_result "movej([0,0,0,0,0,0])\nbadline()\n".toList (fun _ => false) 7
    ["ack: 5".toList] "discard: ".toList [] { id := 0, raw_reply := "discard: ".toList, rejected := true }
    (by
      intro r hr
      simp only [List.mem_singleton] at hr
      subst hr
      exact ⟨{ id := 5, raw_reply := "ack: 5".toList, rejected := false }, by decide, rfl⟩)
    (by decide) rfl (by decide)

/-! ## `BlockExecutor::wait_for_completion` (`src/block_executor.rs`)

The statement-execution wait polls `get_last_executed_id` every 100 ms;
the emergency-abort flag is checked before each poll, and (in the
variant armed with a shutdown handler) the shutdown signal can win the
race against the poll.  Flags and cursor are oracles indexed by the
poll step; fuel bounds the unbounded loop. -/

/-- The polling loop of `wait_for_completion`: at step `t`, exit
`false` if the abort flag (or the shutdown signal, in the armed
variant) is observed, otherwise query the execution cursor once and
exit `true` when it has reached `commandId`.  Returns
`(completed, number of cursor queries made)`; `none` is fuel
exhaustion. -/
def waitPollLoop (commandId : Nat) (abort shutdown : Nat → Bool) (cursor : Nat → Nat) :
    Nat → Nat → Option (Bool × Nat)
  | _, 0 => none
  | t, fuel + 1 =>
    if abort t then some (false, t)
    else if shutdown t then some (false, t)
    else if commandId ≤ cursor t then some (true, t + 1)
    else waitPollLoop commandId abort shutdown cursor (t + 1) fuel

/-- `BlockExecutor::wait_for_completion`: commands with `id = 0`
(rejected statements) are never waited on — the guard
`if command_id == 0 { return Ok(true); }` runs before the abort-signal
lookup, the shutdown handler and the poll loop. -/
def waitForCompletion (commandId : Nat) (abort shutdown : Nat → Bool)
    (cursor : Nat → Nat) (fuel : Nat) : Option (Bool × Nat) :=
  if commandId = 0 then some (true, 0)
  else waitPollLoop commandId abort shutdown cursor 0 fuel

/-- C10: `wait_for_completion` invoked with `command_id = 0` returns
`completed = true` immediately — zero cursor queries — for every abort
flag history, shutdown history, cursor history and fuel; in particular
the shutdown and abort flags cannot steer a wait for id 0 into the
`Failed` path. -/
theorem wait_for_completion_id_zero (abort shutdown : Nat → Bool)
    (cursor : Nat → Nat) (fuel : Nat) :
    waitForCompletion 0 abort shutdown cursor fuel = some (true, 0) := by
  unfold waitForCompletion
  rw [if_pos rfl]

/-! ## Brace tracking and auto-clear (`src/block_executor.rs`)

`update_brace_tracking` scans a submission left to right with
`find('{')` / `find('}')`; `should_auto_clear` tests
`urscript_count % CLEAR_BUFFER_LIMIT == 0 && !inside_brace_block`, and
`urscript_count` is incremented exactly when a URScript submission
completes successfully (`execute_urscript_and_wait`, line 423).
`should_auto_clear` has no caller inside `BlockExecutor` under `src/`;
the driver protocol — check after every successful URScript execution
and run `periodic_clear` when the check passes — is modelled from the
spec (§4.3 Auto-clear), matching the analogous loop in
`src/stream.rs`. -/

/-- `CLEAR_BUFFER_LIMIT` (`src/block_executor.rs`). -/
def CLEAR_BUFFER_LIMIT : Nat := 500

/-- Split `s` at the first occurrence of `ch` (Rust `str::find` plus
taking the suffix after the match). -/
def splitAtChar (ch : Char) : Str → Option (Str × Str)
  | [] => none
  | c :: t =>
    if c = ch then some ([], t)
    else (splitAtChar ch t).map (fun p => (c :: p.1, p.2))

theorem splitAtChar_length {ch : Char} :
    ∀ {s p q : Str}, splitAtChar ch s = some (p, q) → q.length < s.length := by
  intro s
  induction s with
  | nil => intro p q h; exact absurd h (by simp [splitAtChar])
  | cons c t ih =>
    intro p q h
    unfold splitAtChar at h
    by_cases hc : c = ch
    · rw [if_pos hc] at h
      injection h with h
      have : q = t := (congrArg (fun x => x.2) h).symm
      subst this
      simp
    · rw [if_neg hc] at h
      rcases hrec : splitAtChar ch t with _ | ⟨p', q'⟩ <;> rw [hrec] at h
      · exact absurd h (by simp)
      · dsimp only [Option.map] at h
        injection h with h
        have : q = q' := (congrArg (fun x => x.2) h).symm
        subst this
        exact Nat.lt_succ_of_lt (ih hrec)

/-- The scanning loop of `update_brace_tracking`: search for `'{'` in
the remainder (setting the flag), then for a matching `'}'` after it
(clearing the flag), and continue after it; with no `'{'` left, a bare
`'}'` clears the flag; no braces left returns the current flag.  The
fuel argument only bounds the position loop structurally; every
iteration consumes at least one character, so `s.length + 1` (used by
`braceScan`) never runs out. -/
def braceScanAux : Nat → Bool → Str → Bool
  | 0, inside, _ => inside
  | fuel + 1, inside, s =>
    match splitAtChar '{' s with
    | some po =>
      match splitAtChar '}' po.2 with
      | some pc => braceScanAux fuel false pc.2
      | none => true
    | none =>
      match splitAtChar '}' s with
      | some pc => braceScanAux fuel false pc.2
      | none => inside

/-- The net effect of `update_brace_tracking`'s scanning loop on the
`inside_brace_block` flag. -/
def braceScan (inside : Bool) (s : Str) : Bool :=
  braceScanAux (s.length + 1) inside s

/-- The brace-relevant state of `BlockExecutor`. -/
structure ExecSt where
  urscript_count : Nat
  inside_brace_block : Bool
  deriving Repr, DecidableEq

/-- `BlockExecutor::update_brace_tracking`. -/
def updateBraceTracking (st : ExecSt) (urscript : Str) : ExecSt :=
  { st with inside_brace_block := braceScan st.inside_brace_block urscript }

/-- `BlockExecutor::should_auto_clear`. -/
def shouldAutoClear (st : ExecSt) : Bool :=
  decide (st.urscript_count % CLEAR_BUFFER_LIMIT = 0) && !st.inside_brace_block

/-- Modelled from the spec (§4.3 Auto-clear; the `should_auto_clear`
call site is absent from `BlockExecutor` in `src/`): one URScript
submission `(text, success)` — scan braces, then on success increment
`urscript_count` and fire the auto-clear protocol exactly when
`should_auto_clear` holds.  Returns the new state, the brace flag in
effect for the submission, and whether auto-clear fired. -/
def autoClearStep (st : ExecSt) (sub : Str × Bool) : ExecSt × Bool × Bool :=
  let st1 := updateBraceTracking st sub.1
  if sub.2 then
    let st2 := { st1 with urscript_count := st1.urscript_count + 1 }
    (st2, st1.inside_brace_block, shouldAutoClear st2)
  else (st1, st1.inside_brace_block, false)

/-- Final executor state after a list of submissions. -/
def autoClearState (st : ExecSt) (subs : List (Str × Bool)) : ExecSt :=
  subs.foldl (fun s x => (autoClearStep s x).1) st

/-- Per-submission trace of (brace flag, auto-clear fired). -/
def autoClearRun (st : ExecSt) : List (Str × Bool) → List (Bool × Bool)
  | [] => []
  | sub :: rest =>
    let s := autoClearStep st sub
    (s.2.1, s.2.2) :: autoClearRun s.1 rest

/-- Number of auto-clears over an all-successful, brace-free run:
the count of multiples of 500 in `(count, count + n]`. -/
theorem autoClearRun_count (st : ExecSt) (subs : List (Str × Bool))
    (hsucc : ∀ x ∈ subs, x.2 = true)
    (hfree : ∀ y ∈ autoClearRun st subs, y.1 = false) :
    (autoClearRun st subs).countP (fun y => y.2) =
      (st.urscript_count + subs.length) / CLEAR_BUFFER_LIMIT -
        st.urscript_count / CLEAR_BUFFER_LIMIT := by
  induction subs generalizing st with
  | nil => simp [autoClearRun]
  | cons sub rest ih =>
    have hs : sub.2 = true := hsucc sub (List.mem_cons_self sub rest)
    have hbr : (updateBraceTracking st sub.1).inside_brace_block = false := by
      have := hfree ((autoClearStep st sub).2.1, (autoClearStep st sub).2.2)
        (by rw [autoClearRun]; exact List.mem_cons_self _ _)
      simpa [autoClearStep, hs] using this
    have hstep : autoClearStep st sub =
        ({ urscript_count := st.urscript_count + 1, inside_brace_block := false },
         false, decide ((st.urscript_count + 1) % CLEAR_BUFFER_LIMIT = 0)) := by
      simp only [autoClearStep, hs, if_true]
      have hup : updateBraceTracking st sub.1 =
          { st with inside_brace_block := false } := by
        unfold updateBraceTracking
        rw [show braceScan st.inside_brace_block sub.1 = false from hbr]
      rw [hup]
      simp [shouldAutoClear]
    have hrest : autoClearRun st (sub :: rest) =
        (false, decide ((st.urscript_count + 1) % CLEAR_BUFFER_LIMIT = 0)) ::
          autoClearRun { urscript_count := st.urscript_count + 1,
                         inside_brace_block := false } rest := by
      rw [autoClearRun, hstep]
    rw [hrest]
    rw [hrest] at hfree
    have ih' := ih { urscript_count := st.urscript_count + 1, inside_brace_block := false }
      (fun x hx => hsucc x (List.mem_cons_of_mem sub hx))
      (fun y hy => hfree y (List.mem_cons_of_mem _ hy))
    rw [List.countP_cons, ih']
    simp only [decide_eq_true_eq]
    have hmono : (st.urscript_count + 1) / CLEAR_BUFFER_LIMIT ≤
        (st.urscript_count + 1 + rest.length) / CLEAR_BUFFER_LIMIT :=
      Nat.div_le_div_right (by omega)
    have harith : st.urscript_count + (sub :: rest).length =
        st.urscript_count + 1 + rest.length := by
      simp [List.length_cons]; omega
    rw [harith]
    by_cases hm : (st.urscript_count + 1) % CLEAR_BUFFER_LIMIT = 0
    · have hsd : (st.urscript_count + 1) / CLEAR_BUFFER_LIMIT =
          st.urscript_count / CLEAR_BUFFER_LIMIT + 1 := by
        rw [Nat.succ_div, if_pos (Nat.dvd_iff_mod_eq_zero.mpr hm)]
      rw [if_pos hm]
      omega
    · have hsd : (st.urscript_count + 1) / CLEAR_BUFFER_LIMIT =
          st.urscript_count / CLEAR_BUFFER_LIMIT := by
        rw [Nat.succ_div, if_neg (fun hd => hm (Nat.dvd_iff_mod_eq_zero.mp hd))]
        omega
      rw [if_neg hm]
      omega

/-- Inside a brace block auto-clear never fires. -/
theorem autoClearRun_inside_brace (st : ExecSt) (subs : List (Str × Bool))
    (hin : ∀ y ∈ autoClearRun st subs, y.1 = true) :
    (autoClearRun st subs).countP (fun y => y.2) = 0 := by
  induction subs generalizing st with
  | nil => simp [autoClearRun]
  | cons sub rest ih =>
    have hb : (autoClearStep st sub).2.1 =
        (updateBraceTracking st sub.1).inside_brace_block := by
      unfold autoClearStep
      by_cases h : sub.2 = true <;> simp [h]
    have hbrace : (updateBraceTracking st sub.1).inside_brace_block = true := by
      have := hin ((autoClearStep st sub).2.1, (autoClearStep st sub).2.2)
        (by rw [autoClearRun]; exact List.mem_cons_self _ _)
      rw [← hb]
      exact this
    have hf : (autoClearStep st sub).2.2 = false := by
      unfold autoClearStep
      by_cases h : sub.2 = true
      · simp only [h, if_true]
        simp [shouldAutoClear, hbrace]
      · simp [h]
    rw [autoClearRun, List.countP_cons]
    have hrest := ih (autoClearStep st sub).1
      (fun y hy => hin y (by rw [autoClearRun]; exact List.mem_cons_of_mem _ hy))
    simp only [hf]
    rw [hrest]
    rfl

/-- C5: `urscript_count` increases exactly once per successfully
completed URScript submission; `should_auto_clear` holds exactly when
`urscript_count` is a multiple of the configured limit (default 500)
and the executor is outside every brace block; consequently, under the
spec's auto-clear protocol (check after every successful execution),
any 500 consecutive successful submissions outside brace blocks fire
exactly one auto-clear, and inside a brace block auto-clear never
fires.  (In a submission `(text, ok)`, `ok` stands for
`execute_urscript_and_wait` having returned `Completed`.) -/
theorem auto_clear_cadence :
    (∀ st subs, (autoClearState st subs).urscript_count =
        st.urscript_count + (subs.filter (fun x => x.2)).length) ∧
    (∀ st, shouldAutoClear st = true ↔
        (st.urscript_count % 500 = 0 ∧ st.inside_brace_block = false)) ∧
    (∀ st subs, subs.length = 500 → (∀ x ∈ subs, x.2 = true) →
        (∀ y ∈ autoClearRun st subs, y.1 = false) →
        (autoClearRun st subs).countP (fun y => y.2) = 1) ∧
    (∀ st subs, (∀ y ∈ autoClearRun st subs, y.1 = true) →
        (autoClearRun st subs).countP (fun y => y.2) = 0) := by
  refine ⟨?_, ?_, ?_, ?_⟩
  · intro st subs
    induction subs generalizing st with
    | nil => simp [autoClearState]
    | cons sub rest ih =>
      have hstep : (autoClearStep st sub).1.urscript_count =
          st.urscript_count + (if sub.2 then 1 else 0) := by
        unfold autoClearStep
        by_cases h : sub.2 = true <;> simp [h, updateBraceTracking]
      have : autoClearState st (sub :: rest) =
          autoClearState (autoClearStep st sub).1 rest := rfl
      rw [this, ih, hstep, List.filter_cons]
      by_cases h : sub.2 = true <;> simp [h] <;> omega
  · intro st
    unfold shouldAutoClear CLEAR_BUFFER_LIMIT
    simp [Bool.and_eq_true, Bool.not_eq_true']
  · intro st subs hlen hsucc hfree
    rw [autoClearRun_count st subs hsucc hfree, hlen]
    unfold CLEAR_BUFFER_LIMIT
    rw [Nat.add_div_right _ (by norm_num)]
    omega
  · exact autoClearRun_inside_brace

set_option maxRecDepth 100000 in
/-- Witness for C5: 500 successful `movej()` submissions from a fresh
executor fire exactly one auto-clear; a single unclosed-brace
submission fires none. -/
theorem auto_clear_cadence_witness :
    (autoClearState ⟨0, false⟩ [("movej()".toList, true)]).urscript_count =
      (0 : Nat) + ([("movej()".toList, true)].filter (fun x => x.2)).length ∧
    (shouldAutoClear ⟨500, false⟩ = true ↔ ((500 : Nat) % 500 = 0 ∧ false = false)) ∧
    (autoClearRun ⟨0, false⟩
        (List.replicate 500 ("movej()".toList, true))).countP (fun y => y.2) = 1 ∧
    (autoClearRun ⟨0, false⟩ [("\x7b".toList, true)]).countP (fun y => y.2) = 0 :=
  ⟨auto_clear_cadence.1 ⟨0, false⟩ [("movej()".toList, true)],
   auto_clear_cadence.2.1 ⟨500, false⟩,
   auto_clear_cadence.2.2.1 ⟨0, false⟩ (List.replicate 500 ("movej()".toList, true))
     (List.length_replicate ..)
     (fun x hx => by rw [List.eq_of_mem_replicate hx])
     (by decide),
   auto_clear_cadence.2.2.2 ⟨0, false⟩ [("\x7b".toList, true)] (by decide)⟩

/-! ## CommandDispatcher (`src/block_executor.rs`)

`CommandDispatcher::submit_command` classifies the command by prefix,
assigns a priority (`ExecutionPriority`: `Low = 0 < Normal = 1 <
High = 2 < Emergency = 3`, the Rust `derive(Ord)` discriminant order)
and inserts into the `VecDeque` at the position of the first item of
strictly lower priority; the worker (`process_next_queued`) pops from
the front.  Arrival order is modelled by a running index. -/

/-- `CommandClass` (`src/block_executor.rs`). -/
inductive CommandClass where
  | emergency
  | query
  | meta
  | urscript
  deriving Repr, DecidableEq

/-- `CommandClass::classify`: `@halt` is Emergency; `@status`,
`@health`, `@pose` are Query; `@reconnect`, `@clear`, `@help` and any
other `@`-command are Meta; everything else is URScript.  The match is
on the entire remainder after `@`. -/
def classify (command : Str) : CommandClass :=
  match command with
  | '@' :: rest =>
    if rest = "halt".toList then .emergency
    else if rest = "status".toList ∨ rest = "health".toList ∨ rest = "pose".toList then
      .query
    else if rest = "reconnect".toList ∨ rest = "clear".toList ∨ rest = "help".toList then
      .meta
    else .meta
  | _ => .urscript

/-- `CommandClass::to_priority`, as the numeric `ExecutionPriority`
discriminant. -/
def toPriority : CommandClass → Nat
  | .emergency => 3
  | .query => 2
  | .meta => 1
  | .urscript => 1

/-- A queued execution (arrival index standing in for the UUID /
arrival timestamp, command text, priority). -/
structure QItem where
  idx : Nat
  cmd : Str
  pri : Nat
  deriving Repr, DecidableEq

/-- The insertion of `submit_command` / `queue_execution`: insert
before the first item of strictly lower priority
(`position(|item| item.priority < priority)`), i.e. after every item
of greater or equal priority. -/
def dispatchInsert (q : List QItem) (it : QItem) : List QItem :=
  match q with
  | [] => [it]
  | x :: xs => if x.pri < it.pri then it :: x :: xs else x :: dispatchInsert xs it

/-- The stable-sort key order of the spec's (P3):
`(−priority, arrival_index)` lexicographically. -/
def keyLE (a b : QItem) : Prop :=
  b.pri < a.pri ∨ (a.pri = b.pri ∧ a.idx ≤ b.idx)

instance : DecidableRel keyLE := fun a b => by
  unfold keyLE
  infer_instance

instance : IsTotal QItem keyLE :=
  ⟨fun a b => by unfold keyLE; omega⟩

instance : IsTrans QItem keyLE :=
  ⟨fun a b c hab hbc => by unfold keyLE at *; omega⟩

/-- Dispatcher events: a submission or a worker pop. -/
inductive DspOp where
  | submit (cmd : Str)
  | pop

/-- One dispatcher step on (next arrival index, queue). -/
def dspStep : Nat × List QItem → DspOp → Nat × List QItem
  | (n, q), .submit cmd => (n + 1, dispatchInsert q ⟨n, cmd, toPriority (classify cmd)⟩)
  | (n, q), .pop => (n, q.tail)

/-- Dispatcher state after a sequence of events, from the empty queue. -/
def dspRun (ops : List DspOp) : Nat × List QItem :=
  ops.foldl dspStep (0, [])

/-- The enumerated submissions of a command stream, with their
priorities, arrival indices starting at `n`. -/
def itemsFrom (n : Nat) (cmds : List Str) : List QItem :=
  (cmds.enumFrom n).map (fun p => ⟨p.1, p.2, toPriority (classify p.2)⟩)

theorem keyLE_of_fresh {x it : QItem} (hpri : ¬x.pri < it.pri) (hidx : x.idx < it.idx) :
    keyLE x it := by
  unfold keyLE
  omega

/-- Inserting a fresh (largest-index) item preserves sortedness and is
a permutation of consing. -/
theorem dispatchInsert_sorted_perm {q : List QItem} {it : QItem}
    (hs : q.Sorted keyLE) (hfresh : ∀ x ∈ q, x.idx < it.idx) :
    (dispatchInsert q it).Sorted keyLE ∧ List.Perm (dispatchInsert q it) (it :: q) := by
  induction q with
  | nil => exact ⟨List.sorted_singleton it, List.Perm.refl _⟩
  | cons x xs ih =>
    rw [List.sorted_cons] at hs
    obtain ⟨hx, hxs⟩ := hs
    unfold dispatchInsert
    by_cases hlt : x.pri < it.pri
    · rw [if_pos hlt]
      refine ⟨List.sorted_cons.mpr ⟨?_, List.sorted_cons.mpr ⟨hx, hxs⟩⟩, List.Perm.refl _⟩
      intro b hb
      rcases List.mem_cons.mp hb with hb | hb
      · subst hb
        exact Or.inl hlt
      · have := hx b hb
        unfold keyLE at this ⊢
        omega
    · rw [if_neg hlt]
      obtain ⟨ihs, ihp⟩ := ih hxs (fun y hy => hfresh y (List.mem_cons_of_mem x hy))
      refine ⟨List.sorted_cons.mpr ⟨?_, ihs⟩, ?_⟩
      · intro b hb
        have hb' := ihp.mem_iff.mp hb
        rcases List.mem_cons.mp hb' with hb' | hb'
        · subst hb'
          exact keyLE_of_fresh hlt (hfresh x (List.mem_cons_self x xs))
        · exact hx b hb'
      · exact List.Perm.trans (ihp.cons x) (List.Perm.swap it x xs)

/-- A run of submissions starting from a sorted queue of smaller
arrival indices: final index, permutation and sortedness. -/
theorem submitRun_props (cmds : List Str) :
    ∀ (n : Nat) (q : List QItem), q.Sorted keyLE → (∀ x ∈ q, x.idx < n) →
      ((cmds.map DspOp.submit).foldl dspStep (n, q)).1 = n + cmds.length ∧
      List.Perm ((cmds.map DspOp.submit).foldl dspStep (n, q)).2 (q ++ itemsFrom n cmds) ∧
      ((cmds.map DspOp.submit).foldl dspStep (n, q)).2.Sorted keyLE := by
  induction cmds with
  | nil =>
    intro n q hs _
    exact ⟨rfl, by simp [itemsFrom, List.enumFrom], hs⟩
  | cons c cs ih =>
    intro n q hs hfresh
    have hstep : dspStep (n, q) (DspOp.submit c) =
        (n + 1, dispatchInsert q ⟨n, c, toPriority (classify c)⟩) := rfl
    obtain ⟨hins, hperm⟩ :=
      @dispatchInsert_sorted_perm q ⟨n, c, toPriority (classify c)⟩ hs hfresh
    have hfresh' : ∀ x ∈ dispatchInsert q ⟨n, c, toPriority (classify c)⟩,
        x.idx < n + 1 := by
      intro x hx
      rcases List.mem_cons.mp (hperm.mem_iff.mp hx) with hx' | hx'
      · subst hx'
        exact Nat.lt_succ_self n
      · exact Nat.lt_succ_of_lt (hfresh x hx')
    obtain ⟨h1, h2, h3⟩ := ih (n + 1) _ hins hfresh'
    refine ⟨?_, ?_, ?_⟩
    · show ((cs.map DspOp.submit).foldl dspStep (dspStep (n, q) (DspOp.submit c))).1 =
        n + (c :: cs).length
      rw [hstep, h1]
      simp [List.length_cons]
      omega
    · show List.Perm ((cs.map DspOp.submit).foldl dspStep (dspStep (n, q) (DspOp.submit c))).2 _
      rw [hstep]
      refine List.Perm.trans h2 (List.Perm.trans (hperm.append_right _) ?_)
      have hgoal : List.Perm ((⟨n, c, toPriority (classify c)⟩ :: q) ++ itemsFrom (n + 1) cs)
          (q ++ itemsFrom n (c :: cs)) := by
            have : itemsFrom n (c :: cs) =
                ⟨n, c, toPriority (classify c)⟩ :: itemsFrom (n + 1) cs := by
              simp [itemsFrom, List.enumFrom]
            rw [this]
            exact (List.perm_middle).symm
      exact hgoal
    · show ((cs.map DspOp.submit).foldl dspStep (dspStep (n, q) (DspOp.submit c))).2.Sorted _
      rw [hstep]
      exact h3

/-- Two sorted permutations of each other with pairwise-distinct
arrival indices are equal (the stable sort is unique). -/
theorem sorted_perm_nodup_idx_eq :
    ∀ (l1 l2 : List QItem), List.Perm l1 l2 → l1.Sorted keyLE → l2.Sorted keyLE →
      (l1.map QItem.idx).Nodup → l1 = l2 := by
  intro l1
  induction l1 with
  | nil =>
    intro l2 hp _ _ _
    exact (hp.nil_eq).symm ▸ rfl
  | cons a t1 ih =>
    intro l2 hp hs1 hs2 hnd
    rcases l2 with _ | ⟨b, t2⟩
    · exact absurd hp.symm.nil_eq (by simp)
    by_cases hab : a = b
    · subst hab
      have hps : List.Perm t1 t2 := hp.cons_inv
      have := ih t2 hps (List.sorted_cons.mp hs1).2 (List.sorted_cons.mp hs2).2
        (by rw [List.map_cons] at hnd; exact hnd.of_cons)
      rw [this]
    · have hbmem : b ∈ a :: t1 := hp.symm.subset (List.mem_cons_self b t2)
      have hamem : a ∈ b :: t2 := hp.subset (List.mem_cons_self a t1)
      have hbt1 : b ∈ t1 := by
        rcases List.mem_cons.mp hbmem with h | h
        · exact absurd h.symm hab
        · exact h
      have hat2 : a ∈ t2 := by
        rcases List.mem_cons.mp hamem with h | h
        · exact absurd h hab
        · exact h
      have hab1 : keyLE a b := (List.sorted_cons.mp hs1).1 b hbt1
      have hab2 : keyLE b a := (List.sorted_cons.mp hs2).1 a hat2
      have hidx : a.idx = b.idx := by
        unfold keyLE at hab1 hab2
        omega
      exfalso
      rw [List.map_cons] at hnd
      have : a.idx ∈ t1.map QItem.idx := by
        rw [hidx]
        exact List.mem_map_of_mem QItem.idx hbt1
      exact (List.nodup_cons.mp hnd).1 this

/-- The queue invariant holds after every event sequence: sorted by the
stable key, and every queued index below the arrival counter. -/
theorem dspStep_invariant :
    ∀ (ops : List DspOp) (n : Nat) (q : List QItem),
      q.Sorted keyLE → (∀ x ∈ q, x.idx < n) →
      (ops.foldl dspStep (n, q)).2.Sorted keyLE ∧
        (∀ x ∈ (ops.foldl dspStep (n, q)).2, x.idx < (ops.foldl dspStep (n, q)).1) := by
  intro ops
  induction ops with
  | nil => exact fun n q hs hf => ⟨hs, hf⟩
  | cons op rest ih =>
    intro n q hs hf
    cases op with
    | submit c =>
      obtain ⟨hins, hperm⟩ :=
        @dispatchInsert_sorted_perm q ⟨n, c, toPriority (classify c)⟩ hs hf
      exact ih (n + 1) _ hins (fun x hx => by
        rcases List.mem_cons.mp (hperm.mem_iff.mp hx) with hx' | hx'
        · subst hx'
          exact Nat.lt_succ_self n
        · exact Nat.lt_succ_of_lt (hf x hx'))
    | pop =>
      have hs' : q.tail.Sorted keyLE := by
        rcases q with _ | ⟨x, xs⟩
        · exact List.sorted_nil
        · exact (List.sorted_cons.mp hs).2
      exact ih n q.tail hs' (fun x hx => hf x (List.mem_of_mem_tail hx))

/-- C4: the dispatcher queue is, at all times (after any mix of
submissions and worker pops), pairwise ordered by non-increasing
priority with arrival order preserved among equal priorities; and
after any stream of `submit_command` calls the queue equals the stable
insertion sort of the enumerated submissions by the key
`(−priority, arrival_index)` — the worker pops from the front, so
execution proceeds in exactly that order. -/
theorem dispatcher_stable_priority_order :
    (∀ ops : List DspOp, (dspRun ops).2.Pairwise
        (fun a b => b.pri ≤ a.pri ∧ (a.pri = b.pri → a.idx ≤ b.idx))) ∧
    (∀ cmds : List Str, (dspRun (cmds.map DspOp.submit)).2 =
        List.insertionSort keyLE (itemsFrom 0 cmds)) := by
  constructor
  · intro ops
    have := (dspStep_invariant ops 0 [] List.sorted_nil (by simp)).1
    exact List.Pairwise.imp (fun h => by unfold keyLE at h; omega) this
  · intro cmds
    obtain ⟨_, hperm, hsorted⟩ := submitRun_props cmds 0 [] List.sorted_nil (by simp)
    have hpermItems : List.Perm (dspRun (cmds.map DspOp.submit)).2 (itemsFrom 0 cmds) := by
      have : ([] : List QItem) ++ itemsFrom 0 cmds = itemsFrom 0 cmds := by simp
      rw [← this]
      exact hperm
    have hnodup : ((dspRun (cmds.map DspOp.submit)).2.map QItem.idx).Nodup := by
      have hmap : List.Perm ((dspRun (cmds.map DspOp.submit)).2.map QItem.idx)
          ((itemsFrom 0 cmds).map QItem.idx) := hpermItems.map QItem.idx
      rw [hmap.nodup_iff]
      have : (itemsFrom 0 cmds).map QItem.idx = List.range' 0 cmds.length := by
        unfold itemsFrom
        rw [List.map_map]
        have : (QItem.idx ∘ fun p : Nat × Str => QItem.mk p.1 p.2
            (toPriority (classify p.2))) = Prod.fst := rfl
        rw [this, List.enumFrom_map_fst]
      rw [this]
      exact List.nodup_range' ..
    exact sorted_perm_nodup_idx_eq _ _
      (hpermItems.trans (List.perm_insertionSort keyLE (itemsFrom 0 cmds)).symm)
      hsorted (List.sorted_insertionSort keyLE (itemsFrom 0 cmds)) hnodup

/-! ## MonitorOutput pose gate (`src/monitoring.rs`)

`should_output_position` first applies the rate gate
(`now.duration_since(last) < Duration::from_millis(1000 / pub_rate_hz)`
blocks), then in dynamic mode the change gate (both TCP pose and joint
tuple within `position_threshold = 0.001` of the last *emitted* tuple
blocks), and only on emission updates `last_position` and
`last_position_output`.  Wall time is modelled in integer milliseconds
(`Instant` is monotone), `f64` components as exact rationals. -/

/-- The monitor-gate state of `MonitorOutput`. -/
structure MonitorSt where
  last_position : Option (List ℚ × List ℚ)
  last_position_output : Option Nat
  pub_rate_hz : Nat
  position_threshold : ℚ
  dynamic_mode : Bool

/-- `MonitorOutput::positions_changed`: some component pair differs by
more than the threshold. -/
def positionsChanged (thr : ℚ) (old new : List ℚ) : Bool :=
  (old.zip new).any (fun p => decide (|p.1 - p.2| > thr))

/-- `MonitorOutput::should_output_position`: rate gate, then (dynamic
mode only) change gate against the last emitted tuple; on emission the
state is updated.  Returns (emit, new state). -/
def shouldOutputPosition (st : MonitorSt) (tcp joints : List ℚ) (now : Nat) :
    Bool × MonitorSt :=
  let rateBlocked :=
    match st.last_position_output with
    | some last => decide (now - last < 1000 / st.pub_rate_hz)
    | none => false
  if rateBlocked then (false, st)
  else
    let changeBlocked := st.dynamic_mode &&
      (match st.last_position with
       | some p =>
         !(positionsChanged st.position_threshold p.1 tcp ||
           positionsChanged st.position_threshold p.2 joints)
       | none => false)
    if changeBlocked then (false, st)
    else
      (true, { st with last_position := some (tcp, joints),
                       last_position_output := some now })

/-- Feed a list of `(tcp, joints, timestamp)` samples through the gate,
collecting the emission decisions. -/
def runPoseSamples (st : MonitorSt) : List (List ℚ × List ℚ × Nat) → List Bool
  | [] => []
  | (tcp, joints, now) :: rest =>
    let r := shouldOutputPosition st tcp joints now
    r.1 :: runPoseSamples r.2 rest

/-- `MonitorOutput::new(pub_rate_hz, dynamic_mode, _)`. -/
def monitorNew (rate : Nat) (dyn : Bool) : MonitorSt :=
  { last_position := none, last_position_output := none,
    pub_rate_hz := rate, position_threshold := 1 / 1000, dynamic_mode := dyn }

theorem positionsChanged_self (thr : ℚ) (hthr : 0 ≤ thr) (l : List ℚ) :
    positionsChanged thr l l = false := by
  unfold positionsChanged
  rw [List.any_eq_false]
  intro p hp
  have hmem : p.1 = p.2 := by
    induction l with
    | nil => simp [List.zip] at hp
    | cons x t ih =>
      rcases List.mem_cons.mp hp with h | h
      · rw [h]
      · exact ih h
  simp only [hmem, sub_self, abs_zero, decide_eq_true_eq]
  intro hcon
  exact absurd (lt_of_le_of_lt hthr hcon) (lt_irrefl _)

/-- C7: the pose gate emits iff at least `1000 / pub_rate_hz`
milliseconds have elapsed since the last emission (always true for the
first sample) and, in dynamic mode, some component of the new TCP pose
or joint tuple differs from the previously *emitted* tuple by more
than the threshold (the change check is skipped in non-dynamic mode
and for the first sample); consequently two identical consecutive
samples 200 ms apart under `dynamic_mode = true, pub_rate_hz = 10`
produce exactly one emission. -/
theorem pose_gate_characterization :
    (∀ (st : MonitorSt) (tcp joints : List ℚ) (now : Nat), 0 < st.pub_rate_hz →
      ((shouldOutputPosition st tcp joints now).1 = true ↔
        ((∀ last, st.last_position_output = some last →
            1000 / st.pub_rate_hz ≤ now - last) ∧
         (st.dynamic_mode = true →
            ∀ p, st.last_position = some p →
              (positionsChanged st.position_threshold p.1 tcp ||
               positionsChanged st.position_threshold p.2 joints) = true)))) ∧
    (∀ tcp joints : List ℚ,
      runPoseSamples (monitorNew 10 true)
        [(tcp, joints, 0), (tcp, joints, 200)] = [true, false]) := by
  constructor
  · intro st tcp joints now _
    unfold shouldOutputPosition
    rcases hlast : st.last_position_output with _ | last
    · simp only [hlast]
      rcases hpos : st.last_position with _ | p
      · simp [hpos]
      · by_cases hdyn : st.dynamic_mode = true
        · simp only [hpos, hdyn, Bool.true_and, if_false, Bool.false_eq_true, ite_false]
          by_cases hch : (positionsChanged st.position_threshold p.1 tcp ||
              positionsChanged st.position_threshold p.2 joints) = true
          · have hch' : positionsChanged st.position_threshold p.1 tcp = true ∨
                positionsChanged st.position_threshold p.2 joints = true := by
              simpa using hch
            simp [hch, hch']
          · simp only [Bool.not_eq_true, Bool.or_eq_false_iff] at hch
            simp [hch.1, hch.2]
        · simp only [Bool.not_eq_true] at hdyn
          simp [hdyn]
    · simp only [hlast]
      by_cases hrate : now - last < 1000 / st.pub_rate_hz
      · simp only [hrate, decide_eq_true_eq, if_true, decide_True]
        constructor
        · intro h
          exact absurd h (by simp)
        · intro ⟨h1, _⟩
          exact absurd (h1 last rfl) (by omega)
      · have hrate' : 1000 / st.pub_rate_hz ≤ now - last := by omega
        simp only [hrate, decide_False, Bool.false_eq_true, if_false]
        rcases hpos : st.last_position with _ | p
        · simp [hpos, hrate']
        · by_cases hdyn : st.dynamic_mode = true
          · simp only [hpos, hdyn, Bool.true_and]
            by_cases hch : (positionsChanged st.position_threshold p.1 tcp ||
                positionsChanged st.position_threshold p.2 joints) = true
            · have hch' : positionsChanged st.position_threshold p.1 tcp = true ∨
                  positionsChanged st.position_threshold p.2 joints = true := by
                simpa using hch
              simp only [hch, Bool.not_true, Bool.false_eq_true, if_false]
              simp [hrate', hch, hch']
            · simp only [Bool.not_eq_true, Bool.or_eq_false_iff] at hch
              simp [hch.1, hch.2, hrate']
          · simp only [Bool.not_eq_true] at hdyn
            simp [hdyn, hrate']
  · intro tcp joints
    have hch : ∀ l : List ℚ, positionsChanged ((1 : ℚ) / 1000) l l = false :=
      fun l => positionsChanged_self _ (by norm_num) l
    norm_num [runPoseSamples, shouldOutputPosition, monitorNew, hch]

/-- Witness for C7: a concrete gate state and the concrete
suppression scenario of the spec (two identical samples 200 ms apart,
10 Hz, dynamic mode). -/
theorem pose_gate_characterization_witness :
    (((shouldOutputPosition (monitorNew 10 true) [(0 : ℚ)] [(0 : ℚ)] 5).1 = true) ↔
      ((∀ last, (monitorNew 10 true).last_position_output = some last →
          1000 / (monitorNew 10 true).pub_rate_hz ≤ 5 - last) ∧
       ((monitorNew 10 true).dynamic_mode = true →
          ∀ p, (monitorNew 10 true).last_position = some p →
            (positionsChanged (monitorNew 10 true).position_threshold p.1 [(0 : ℚ)] ||
             positionsChanged (monitorNew 10 true).position_threshold p.2
               [(0 : ℚ)]) = true))) ∧
    runPoseSamples (monitorNew 10 true)
      [([(0 : ℚ)], [(0 : ℚ)], 0), ([(0 : ℚ)], [(0 : ℚ)], 200)] = [true, false] :=
  ⟨pose_gate_characterization.1 (monitorNew 10 true) [(0 : ℚ)] [(0 : ℚ)] 5 (by norm_num [monitorNew]),
   pose_gate_characterization.2 [(0 : ℚ)] [(0 : ℚ)]⟩

/-! ## Rodrigues rotation (`rotvec_to_direction_vector`,
`src/block_executor.rs`)

The `f64` arithmetic is modelled over the exact reals (the claim is
about the mathematical formula; in exact arithmetic the result is a
unit vector). -/

/-- `rotvec_to_direction_vector` (`src/block_executor.rs`): rotate the
TCP `+Z` axis by the axis–angle vector `(rx, ry, rz)` via Rodrigues'
formula; below the `1e-8` angle threshold return `+Z` unchanged. -/
noncomputable def rotvec_to_direction_vector (rx ry rz : ℝ) : ℝ × ℝ × ℝ :=
  let angle := Real.sqrt (rx * rx + ry * ry + rz * rz)
  if angle < 1e-8 then (0, 0, 1)
  else
    let kx := rx / angle
    let ky := ry / angle
    let kz := rz / angle
    let v0 : ℝ := 0
    let v1 : ℝ := 0
    let v2 : ℝ := 1
    let cos_angle := Real.cos angle
    let sin_angle := Real.sin angle
    let one_minus_cos := 1 - cos_angle
    let k_dot_v := kx * v0 + ky * v1 + kz * v2
    let cross_x := ky * v2 - kz * v1
    let cross_y := kz * v0 - kx * v2
    let cross_z := kx * v1 - ky * v0
    (v0 * cos_angle + cross_x * sin_angle + kx * k_dot_v * one_minus_cos,
     v1 * cos_angle + cross_y * sin_angle + ky * k_dot_v * one_minus_cos,
     v2 * cos_angle + cross_z * sin_angle + kz * k_dot_v * one_minus_cos)

/-- C8: for every rotation vector the result is a unit vector
(Euclidean norm 1); in particular `(0,0,0) ↦ (0,0,1)` and
`(0,0,π/2) ↦ (0,0,1)` (the `+Z` axis is invariant under a rotation
about `Z`). -/
theorem rotvec_direction_unit :
    (∀ rx ry rz : ℝ,
      (rotvec_to_direction_vector rx ry rz).1 ^ 2 +
        (rotvec_to_direction_vector rx ry rz).2.1 ^ 2 +
        (rotvec_to_direction_vector rx ry rz).2.2 ^ 2 = 1 ∧
      Real.sqrt ((rotvec_to_direction_vector rx ry rz).1 ^ 2 +
        (rotvec_to_direction_vector rx ry rz).2.1 ^ 2 +
        (rotvec_to_direction_vector rx ry rz).2.2 ^ 2) = 1) ∧
    rotvec_to_direction_vector 0 0 0 = (0, 0, 1) ∧
    rotvec_to_direction_vector 0 0 (Real.pi / 2) = (0, 0, 1) := by
  have hmain : ∀ rx ry rz : ℝ,
      (rotvec_to_direction_vector rx ry rz).1 ^ 2 +
        (rotvec_to_direction_vector rx ry rz).2.1 ^ 2 +
        (rotvec_to_direction_vector rx ry rz).2.2 ^ 2 = 1 := by
    intro rx ry rz
    unfold rotvec_to_direction_vector
    by_cases h : Real.sqrt (rx * rx + ry * ry + rz * rz) < 1e-8
    · rw [if_pos h]
      norm_num
    · rw [if_neg h]
      dsimp only
      have hnn : (0 : ℝ) ≤ rx * rx + ry * ry + rz * rz := by
        nlinarith [mul_self_nonneg rx, mul_self_nonneg ry, mul_self_nonneg rz]
      have hsq : Real.sqrt (rx * rx + ry * ry + rz * rz) ^ 2 =
          rx * rx + ry * ry + rz * rz := Real.sq_sqrt hnn
      have hane : Real.sqrt (rx * rx + ry * ry + rz * rz) ≠ 0 := by
        intro h0
        rw [h0] at h
        exact h (by norm_num)
      set a := Real.sqrt (rx * rx + ry * ry + rz * rz) with ha
      have hk : (rx / a) ^ 2 + (ry / a) ^ 2 + (rz / a) ^ 2 = 1 := by
        field_simp
        linear_combination -hsq
      have hcs := Real.sin_sq_add_cos_sq a
      linear_combination
        ((Real.sin a) ^ 2 + (1 - Real.cos a) ^ 2 * (rz / a) ^ 2) * hk +
          (1 - (rz / a) ^ 2) * hcs
  refine ⟨fun rx ry rz => ⟨hmain rx ry rz, by rw [hmain rx ry rz]; exact Real.sqrt_one⟩,
    ?_, ?_⟩
  · unfold rotvec_to_direction_vector
    rw [if_pos]
    norm_num
  · unfold rotvec_to_direction_vector
    have hpi : (0 : ℝ) < Real.pi / 2 := by
      have := Real.pi_gt_three
      linarith
    have hsum : (0 : ℝ) * 0 + 0 * 0 + Real.pi / 2 * (Real.pi / 2) =
        (Real.pi / 2) ^ 2 := by ring
    have hsqrt : Real.sqrt (0 * 0 + 0 * 0 + Real.pi / 2 * (Real.pi / 2)) =
        Real.pi / 2 := by
      rw [hsum]
      exact Real.sqrt_sq hpi.le
    rw [if_neg (by rw [hsqrt]; intro hcon; nlinarith [Real.pi_gt_three])]
    dsimp only
    rw [hsqrt]
    have hne : Real.pi / 2 ≠ 0 := ne_of_gt hpi
    simp only [Prod.mk.injEq]
    refine ⟨by field_simp, by field_simp, ?_⟩
    field_simp

/-! ## RTDE codec (`src/rtde.rs`)

Frames are `u16_be length | u8 type | body` with `length` counting the
3-byte header (`send_message`); a DataPackage (`type = 85`) body is the
recipe-id byte followed by the concatenated big-endian field bodies,
decoded by walking the persisted type-tag list (`parse_data_package`).
`f64` values are carried as their 64-bit patterns; the `i32 as f64` /
`u32 as f64` widening is the IEEE-754 binary64 encoding `f64bitsOfInt`
(exact for `|n| < 2^53`), whose correctness against the semantic value
map `f64val` is part of the round-trip theorem. -/

/-- `k` bytes of `x`, big-endian (the behaviour of
`to_be_bytes` / the robot's big-endian field encoding). -/
def bytesBE : Nat → Nat → List Nat
  | 0, _ => []
  | k + 1, x => bytesBE k (x / 256) ++ [x % 256]

/-- Reassemble big-endian bytes (`from_be_bytes`). -/
def natOfBytesBE (bs : List Nat) : Nat :=
  bs.foldl (fun a b => a * 256 + b) 0

theorem length_bytesBE : ∀ (k x : Nat), (bytesBE k x).length = k
  | 0, _ => rfl
  | k + 1, x => by
    unfold bytesBE
    rw [List.length_append, length_bytesBE k (x / 256)]
    simp

theorem natOfBytesBE_append_singleton (l : List Nat) (b : Nat) :
    natOfBytesBE (l ++ [b]) = natOfBytesBE l * 256 + b := by
  unfold natOfBytesBE
  rw [List.foldl_append]
  rfl

theorem natOfBytesBE_bytesBE : ∀ (k x : Nat),
    natOfBytesBE (bytesBE k x) = x % 256 ^ k
  | 0, x => by simp [bytesBE, natOfBytesBE, Nat.mod_one]
  | k + 1, x => by
    unfold bytesBE
    rw [natOfBytesBE_append_singleton, natOfBytesBE_bytesBE k (x / 256)]
    have h256 : (256 : Nat) ^ (k + 1) = 256 * 256 ^ k := by ring
    rw [h256, Nat.mod_mul]
    ring

theorem natOfBytesBE_bytesBE_of_lt {k x : Nat} (h : x < 256 ^ k) :
    natOfBytesBE (bytesBE k x) = x := by
  rw [natOfBytesBE_bytesBE, Nat.mod_eq_of_lt h]

/-- A typed RTDE value: `f64` values by bit pattern, integers by value. -/
inductive RTDEValue where
  | vector6d (xs : List Nat)
  | double (x : Nat)
  | int32 (n : Int)
  | uint32 (n : Nat)
  deriving Repr, DecidableEq

/-- The type tag the recipe reply carries for a value. -/
def typeTag : RTDEValue → Str
  | .vector6d _ => "VECTOR6D".toList
  | .double _ => "DOUBLE".toList
  | .int32 _ => "INT32".toList
  | .uint32 _ => "UINT32".toList

/-- Well-formedness of a typed value (widths of the machine types). -/
def wfValue : RTDEValue → Prop
  | .vector6d xs => xs.length = 6 ∧ ∀ x ∈ xs, x < 2 ^ 64
  | .double x => x < 2 ^ 64
  | .int32 n => -(2 ^ 31) ≤ n ∧ n < 2 ^ 31
  | .uint32 n => n < 2 ^ 32

instance : DecidablePred wfValue := fun v => by
  unfold wfValue
  cases v <;> infer_instance

/-- Big-endian field body of one value (modelled from the spec's frame
description: `VECTOR6D` six 8-byte doubles, `DOUBLE` one, `INT32` /
`UINT32` 4 bytes two's-complement / unsigned). -/
def encodeValue : RTDEValue → List Nat
  | .vector6d xs => (xs.map (bytesBE 8)).flatten
  | .double x => bytesBE 8 x
  | .int32 n => bytesBE 4 (if n < 0 then (n + 2 ^ 32).toNat else n.toNat)
  | .uint32 n => bytesBE 4 n

/-- Concatenated field bodies of a recipe's values. -/
def encodeFieldsBody (vals : List RTDEValue) : List Nat :=
  (vals.map encodeValue).flatten

/-- A DataPackage frame for the given recipe id and values:
`u16_be length | 85 | recipe_id | body`, with `length` counting the
3-byte header (`send_message` computes `(payload.len() + 3) as u16`,
hence the `% 2^16`). -/
def encodeFrame (recipeId : Nat) (vals : List RTDEValue) : List Nat :=
  let payload := recipeId :: encodeFieldsBody vals
  let size := (payload.length + 3) % 2 ^ 16
  (size / 256) % 256 :: size % 256 :: 85 :: payload

/-- The message types `receive_message` recognizes. -/
def msgTypeKnown (b : Nat) : Bool :=
  b = 86 || b = 77 || b = 85 || b = 79 || b = 78 || b = 83 || b = 84

/-- `RTDEClient::receive_message`: read the 3-byte header, decode the
length, reject unknown type bytes, then read `length - 3` payload
bytes.  Returns (type, payload, rest of stream); `none` models a read
failure (including the `size < 3` usize-underflow read). -/
def receiveMessage (stream : List Nat) : Option (Nat × List Nat × List Nat) :=
  match stream with
  | b0 :: b1 :: bt :: rest =>
    let size := b0 * 256 + b1
    if msgTypeKnown bt then
      if size < 3 then none
      else if size - 3 ≤ rest.length then
        some (bt, rest.take (size - 3), rest.drop (size - 3))
      else none
    else none
  | _ => none

/-- The IEEE-754 binary64 bit pattern of an integer (the Rust
`i32 as f64` / `u32 as f64` widening; exact for `|n| < 2^53`). -/
def f64bitsOfInt (n : Int) : Nat :=
  if n = 0 then 0
  else
    let s : Nat := if n < 0 then 1 else 0
    let m := n.natAbs
    let e := Nat.log 2 m
    s * 2 ^ 63 + (e + 1023) * 2 ^ 52 + (m * 2 ^ (52 - e) - 2 ^ 52)

/-- The rational value denoted by a binary64 bit pattern (`none` for
infinities and NaNs). -/
def f64val (bits : Nat) : Option ℚ :=
  let s : Nat := bits / 2 ^ 63
  let e : Nat := (bits / 2 ^ 52) % 2 ^ 11
  let m : Nat := bits % 2 ^ 52
  if e = 2047 then none
  else
    let mag : ℚ :=
      if e = 0 then (m : ℚ) * (2 : ℚ) ^ (-(1074 : ℤ))
      else ((2 ^ 52 + m : Nat) : ℚ) * (2 : ℚ) ^ ((e : ℤ) - 1075)
    some (if s = 1 then -mag else mag)

/-- Read `k` consecutive big-endian `f64` bit patterns. -/
def readWords8 : Nat → List Nat → List Nat
  | 0, _ => []
  | k + 1, d => natOfBytesBE (d.take 8) :: readWords8 k (d.drop 8)

/-- `HashMap::insert`: replace the value of an existing key, otherwise
append. -/
def upsert (k : Str) (v : List Nat) : List (Str × List Nat) → List (Str × List Nat)
  | [] => [(k, v)]
  | (k', v') :: t => if k' = k then (k, v) :: t else (k', v') :: upsert k v t

/-- The field-decoding loop of `RTDEClient::parse_data_package`: walk
the persisted type list, pairing each type with its variable name,
reading the field body and inserting into the result map.  `INT32` and
`UINT32` are widened to `f64` (`value as f64`), i.e. to the IEEE-754
bit pattern of their exact value. -/
def parseDataFields : List Str → List Str → List Nat → List (Str × List Nat) →
    Option (List (Str × List Nat))
  | _, [], _, acc => some acc
  | [], _ :: _, _, _ => none
  | v :: vrest, ty :: trest, data, acc =>
    if ty = "VECTOR6D".toList then
      if 48 ≤ data.length then
        parseDataFields vrest trest (data.drop 48) (upsert v (readWords8 6 data) acc)
      else none
    else if ty = "DOUBLE".toList then
      if 8 ≤ data.length then
        parseDataFields vrest trest (data.drop 8)
          (upsert v [natOfBytesBE (data.take 8)] acc)
      else none
    else if ty = "INT32".toList then
      if 4 ≤ data.length then
        parseDataFields vrest trest (data.drop 4)
          (upsert v [f64bitsOfInt
            (if 2 ^ 31 ≤ natOfBytesBE (data.take 4) then
               (natOfBytesBE (data.take 4) : Int) - 2 ^ 32
             else (natOfBytesBE (data.take 4) : Int))] acc)
      else none
    else if ty = "UINT32".toList then
      if 4 ≤ data.length then
        parseDataFields vrest trest (data.drop 4)
          (upsert v [f64bitsOfInt (natOfBytesBE (data.take 4))] acc)
      else none
    else none

/-- `RTDEClient::parse_data_package`. -/
def parse_data_package (vars types : List Str) (data : List Nat) :
    Option (List (Str × List Nat)) :=
  parseDataFields vars types data []

/-- `RTDEClient::read_data_package`: receive one message, require type
`85` (DataPackage) and a non-empty payload, skip the recipe-id byte and
decode the rest. -/
def read_data_package (vars types : List Str) (stream : List Nat) :
    Option (List (Str × List Nat)) :=
  match receiveMessage stream with
  | some (bt, payload, _) =>
    if bt = 85 then
      match payload with
      | [] => none
      | _ :: data => parse_data_package vars types data
    else none
  | none => none

/-- The decoded (widened) form of a typed value: `f64` bit patterns,
`INT32`/`UINT32` as the bit pattern of their exact `f64` widening, in
length-1 vectors. -/
def widenValue : RTDEValue → List Nat
  | .vector6d xs => xs
  | .double x => [x]
  | .int32 n => [f64bitsOfInt n]
  | .uint32 n => [f64bitsOfInt n]

theorem take_append_chunk {c r : List Nat} {k : Nat} (h : c.length = k) :
    (c ++ r).take k = c := by
  subst h
  exact List.take_left c r

theorem drop_append_chunk {c r : List Nat} {k : Nat} (h : c.length = k) :
    (c ++ r).drop k = r := by
  subst h
  exact List.drop_left c r

theorem flatten_bytes_length (xs : List Nat) :
    ((xs.map (bytesBE 8)).flatten).length = 8 * xs.length := by
  induction xs with
  | nil => simp
  | cons x t ih =>
    simp only [List.map_cons, List.flatten_cons, List.length_append, ih,
      length_bytesBE, List.length_cons]
    ring

theorem readWords8_encode : ∀ (xs : List Nat) (r : List Nat),
    (∀ x ∈ xs, x < 2 ^ 64) →
    readWords8 xs.length ((xs.map (bytesBE 8)).flatten ++ r) = xs := by
  intro xs
  induction xs with
  | nil => intro r _; rfl
  | cons x t ih =>
    intro r hlt
    have hx : x < 2 ^ 64 := hlt x (List.mem_cons_self x t)
    have hx' : x < 256 ^ 8 := by
      have : (256 : Nat) ^ 8 = 2 ^ 64 := by norm_num
      omega
    show readWords8 (t.length + 1)
      ((bytesBE 8 x ++ (t.map (bytesBE 8)).flatten) ++ r) = x :: t
    rw [List.append_assoc]
    unfold readWords8
    rw [take_append_chunk (length_bytesBE 8 x), drop_append_chunk (length_bytesBE 8 x),
      natOfBytesBE_bytesBE_of_lt hx', ih r (fun y hy => hlt y (List.mem_cons_of_mem x hy))]

theorem encodeValue_length_vector6d {xs : List Nat} (h : xs.length = 6) :
    (encodeValue (.vector6d xs)).length = 48 := by
  unfold encodeValue
  rw [flatten_bytes_length, h]

/-- One decoding step on a `VECTOR6D` field. -/
theorem parseDataFields_step_vector6d (v : Str) (vars types : List Str)
    (xs restBody : List Nat) (acc : List (Str × List Nat))
    (hlen : xs.length = 6) (hlt : ∀ x ∈ xs, x < 2 ^ 64) :
    parseDataFields (v :: vars) ("VECTOR6D".toList :: types)
      ((xs.map (bytesBE 8)).flatten ++ restBody) acc =
      parseDataFields vars types restBody (upsert v xs acc) := by
  have hflat : ((xs.map (bytesBE 8)).flatten).length = 48 := by
    rw [flatten_bytes_length, hlen]
  simp only [parseDataFields]
  rw [if_pos trivial,
    if_pos (by rw [List.length_append, hflat]; omega)]
  rw [drop_append_chunk hflat]
  have hwords : readWords8 6 ((xs.map (bytesBE 8)).flatten ++ restBody) = xs := by
    rw [← hlen]
    exact readWords8_encode xs restBody hlt
  rw [hwords]

/-- One decoding step on a `DOUBLE` field. -/
theorem parseDataFields_step_double (v : Str) (vars types : List Str)
    (x : Nat) (restBody : List Nat) (acc : List (Str × List Nat)) (hx : x < 2 ^ 64) :
    parseDataFields (v :: vars) ("DOUBLE".toList :: types)
      (bytesBE 8 x ++ restBody) acc =
      parseDataFields vars types restBody (upsert v [x] acc) := by
  have hx' : x < 256 ^ 8 := by
    have : (256 : Nat) ^ 8 = 2 ^ 64 := by norm_num
    omega
  simp only [parseDataFields]
  rw [if_neg (by decide), if_pos trivial,
    if_pos (by rw [List.length_append, length_bytesBE]; omega)]
  rw [take_append_chunk (length_bytesBE 8 x), drop_append_chunk (length_bytesBE 8 x),
    natOfBytesBE_bytesBE_of_lt hx']

/-- One decoding step on an `INT32` field: two's-complement round trip
composed with the `i32 as f64` widening. -/
theorem parseDataFields_step_int32 (v : Str) (vars types : List Str)
    (n : Int) (restBody : List Nat) (acc : List (Str × List Nat))
    (hlo : -(2 ^ 31) ≤ n) (hhi : n < 2 ^ 31) :
    parseDataFields (v :: vars) ("INT32".toList :: types)
      (bytesBE 4 (if n < 0 then (n + 2 ^ 32).toNat else n.toNat) ++ restBody) acc =
      parseDataFields vars types restBody (upsert v [f64bitsOfInt n] acc) := by
  set u : Nat := if n < 0 then (n + 2 ^ 32).toNat else n.toNat with hu
  have hult : u < 2 ^ 32 := by
    rw [hu]
    split <;> omega
  have hu' : u < 256 ^ 4 := by
    have : (256 : Nat) ^ 4 = 2 ^ 32 := by norm_num
    omega
  simp only [parseDataFields]
  rw [if_neg (by decide), if_neg (by decide), if_pos trivial,
    if_pos (by rw [List.length_append, length_bytesBE]; omega)]
  rw [take_append_chunk (length_bytesBE 4 u), drop_append_chunk (length_bytesBE 4 u),
    natOfBytesBE_bytesBE_of_lt hu']
  have hback : (if 2 ^ 31 ≤ u then (u : Int) - 2 ^ 32 else (u : Int)) = n := by
    rw [hu]
    by_cases hneg : n < 0
    · rw [if_pos hneg]
      have h1 : ((n + 2 ^ 32).toNat : Int) = n + 2 ^ 32 := by omega
      rw [if_pos (by omega), h1]
      ring
    · rw [if_neg hneg]
      have h1 : ((n.toNat : Int)) = n := by omega
      rw [if_neg (by omega), h1]
  rw [hback]

/-- One decoding step on a `UINT32` field. -/
theorem parseDataFields_step_uint32 (v : Str) (vars types : List Str)
    (n : Nat) (restBody : List Nat) (acc : List (Str × List Nat)) (hn : n < 2 ^ 32) :
    parseDataFields (v :: vars) ("UINT32".toList :: types)
      (bytesBE 4 n ++ restBody) acc =
      parseDataFields vars types restBody (upsert v [f64bitsOfInt n] acc) := by
  have hn' : n < 256 ^ 4 := by
    have : (256 : Nat) ^ 4 = 2 ^ 32 := by norm_num
    omega
  simp only [parseDataFields]
  rw [if_neg (by decide), if_neg (by decide), if_neg (by decide), if_pos trivial,
    if_pos (by rw [List.length_append, length_bytesBE]; omega)]
  rw [take_append_chunk (length_bytesBE 4 n), drop_append_chunk (length_bytesBE 4 n),
    natOfBytesBE_bytesBE_of_lt hn']

/-- Decoding the encoded body of a recipe accumulates exactly the
widened values. -/
theorem parseDataFields_encode :
    ∀ (recipe : List (Str × RTDEValue)) (acc : List (Str × List Nat)),
      (∀ p ∈ recipe, wfValue p.2) →
      parseDataFields (recipe.map Prod.fst) (recipe.map (fun p => typeTag p.2))
        (encodeFieldsBody (recipe.map Prod.snd)) acc =
        some (recipe.foldl (fun a p => upsert p.1 (widenValue p.2) a) acc) := by
  intro recipe
  induction recipe with
  | nil => intro acc _; rfl
  | cons p rest ih =>
    intro acc hwf
    obtain ⟨v, val⟩ := p
    have hwfv : wfValue val := hwf (v, val) (List.mem_cons_self _ _)
    have hwfr : ∀ q ∈ rest, wfValue q.2 :=
      fun q hq => hwf q (List.mem_cons_of_mem _ hq)
    have hbody : encodeFieldsBody (((v, val) :: rest).map Prod.snd) =
        encodeValue val ++ encodeFieldsBody (rest.map Prod.snd) := by
      simp [encodeFieldsBody]
    have hih := ih (upsert v (widenValue val) acc) hwfr
    have hfold : ((v, val) :: rest).foldl (fun a p => upsert p.1 (widenValue p.2) a) acc =
        rest.foldl (fun a p => upsert p.1 (widenValue p.2) a)
          (upsert v (widenValue val) acc) := rfl
    rw [hfold, hbody]
    simp only [List.map_cons]
    cases val with
    | vector6d xs =>
      obtain ⟨hlen, hlt⟩ := hwfv
      rw [show typeTag (RTDEValue.vector6d xs) = "VECTOR6D".toList from rfl,
        show encodeValue (RTDEValue.vector6d xs) = (xs.map (bytesBE 8)).flatten from rfl,
        parseDataFields_step_vector6d v _ _ xs _ acc hlen hlt]
      exact hih
    | double x =>
      rw [show typeTag (RTDEValue.double x) = "DOUBLE".toList from rfl,
        show encodeValue (RTDEValue.double x) = bytesBE 8 x from rfl,
        parseDataFields_step_double v _ _ x _ acc hwfv]
      exact hih
    | int32 n =>
      obtain ⟨hlo, hhi⟩ := hwfv
      exact (parseDataFields_step_int32 v (rest.map Prod.fst)
        (rest.map (fun p => typeTag p.2)) n (encodeFieldsBody (rest.map Prod.snd))
        acc hlo hhi).trans hih
    | uint32 n =>
      rw [show typeTag (RTDEValue.uint32 n) = "UINT32".toList from rfl,
        show encodeValue (RTDEValue.uint32 n) = bytesBE 4 n from rfl,
        parseDataFields_step_uint32 v _ _ n _ acc hwfv]
      exact hih

theorem upsert_not_mem {k : Str} {v : List Nat} :
    ∀ {acc : List (Str × List Nat)}, k ∉ acc.map Prod.fst →
      upsert k v acc = acc ++ [(k, v)] := by
  intro acc
  induction acc with
  | nil => intro _; rfl
  | cons p t ih =>
    intro hk
    obtain ⟨k', v'⟩ := p
    rw [List.map_cons, List.mem_cons] at hk
    push_neg at hk
    unfold upsert
    rw [if_neg (fun h => hk.1 h.symm), ih hk.2]
    rfl

/-- With pairwise-distinct keys, the accumulated `HashMap` inserts are
just the association list of the recipe, in order. -/
theorem foldl_upsert_eq_map :
    ∀ (recipe : List (Str × RTDEValue)) (acc : List (Str × List Nat)),
      (recipe.map Prod.fst).Nodup →
      (∀ p ∈ recipe, p.1 ∉ acc.map Prod.fst) →
      recipe.foldl (fun a p => upsert p.1 (widenValue p.2) a) acc =
        acc ++ recipe.map (fun p => (p.1, widenValue p.2)) := by
  intro recipe
  induction recipe with
  | nil => intro acc _ _; simp
  | cons p rest ih =>
    intro acc hnd hfresh
    obtain ⟨v, val⟩ := p
    have hstep : upsert v (widenValue val) acc = acc ++ [(v, widenValue val)] :=
      upsert_not_mem (hfresh (v, val) (List.mem_cons_self _ _))
    have hnd' : (rest.map Prod.fst).Nodup := by
      rw [List.map_cons] at hnd
      exact hnd.of_cons
    have hvni : v ∉ rest.map Prod.fst := by
      rw [List.map_cons] at hnd
      exact (List.nodup_cons.mp hnd).1
    have hfresh' : ∀ q ∈ rest, q.1 ∉ (acc ++ [(v, widenValue val)]).map Prod.fst := by
      intro q hq
      rw [List.map_append, List.mem_append]
      push_neg
      refine ⟨hfresh q (List.mem_cons_of_mem _ hq), ?_⟩
      simp only [List.map_cons, List.map_nil, List.mem_singleton]
      intro hcon
      exact hvni (hcon ▸ List.mem_map_of_mem Prod.fst hq)
    show rest.foldl (fun a p => upsert p.1 (widenValue p.2) a)
      (upsert v (widenValue val) acc) = _
    rw [hstep, ih (acc ++ [(v, widenValue val)]) hnd' hfresh']
    simp

/-- `receive_message` applied to an encoded DataPackage frame that fits
in the `u16` length field. -/
theorem receiveMessage_encodeFrame (recipeId : Nat) (vals : List RTDEValue)
    (hsize : (recipeId :: encodeFieldsBody vals).length + 3 < 2 ^ 16) :
    receiveMessage (encodeFrame recipeId vals) =
      some (85, recipeId :: encodeFieldsBody vals, []) := by
  unfold encodeFrame receiveMessage
  dsimp only
  have hmod : ((recipeId :: encodeFieldsBody vals).length + 3) % 2 ^ 16 =
      (recipeId :: encodeFieldsBody vals).length + 3 := Nat.mod_eq_of_lt hsize
  rw [hmod]
  set L := (recipeId :: encodeFieldsBody vals).length with hL
  have hL1 : 1 ≤ L := by rw [hL]; simp
  have hdiv : (L + 3) / 256 % 256 * 256 + (L + 3) % 256 = L + 3 := by
    have h1 : (L + 3) / 256 < 256 := by
      have : L + 3 < 2 ^ 16 := hsize
      omega
    rw [Nat.mod_eq_of_lt h1]
    have := Nat.div_add_mod (L + 3) 256
    omega
  rw [hdiv]
  rw [if_pos (by decide), if_neg (by omega)]
  have hsub : L + 3 - 3 = L := by omega
  rw [hsub, if_pos (le_refl L), hL, List.take_length, List.drop_length]

/-- Field extraction of `f64val` on a normal-number bit pattern. -/
theorem f64val_fields (s E M : Nat) (hs : s ≤ 1) (hE1 : 1 ≤ E) (hE : E < 2047)
    (hM : M < 2 ^ 52) :
    f64val (s * 2 ^ 63 + E * 2 ^ 52 + M) =
      some (if s = 1 then -(((2 ^ 52 + M : Nat) : ℚ) * (2 : ℚ) ^ ((E : ℤ) - 1075))
            else ((2 ^ 52 + M : Nat) : ℚ) * (2 : ℚ) ^ ((E : ℤ) - 1075)) := by
  have hfs : (s * 2 ^ 63 + E * 2 ^ 52 + M) / 2 ^ 63 = s := by
    interval_cases s <;> omega
  have hfe : ((s * 2 ^ 63 + E * 2 ^ 52 + M) / 2 ^ 52) % 2 ^ 11 = E := by
    interval_cases s <;> omega
  have hfm : (s * 2 ^ 63 + E * 2 ^ 52 + M) % 2 ^ 52 = M := by
    interval_cases s <;> omega
  simp only [f64val]
  rw [hfs, hfe, hfm, if_neg (by omega : ¬ E = 2047), if_neg (by omega : ¬ E = 0)]

/-- The `i32 as f64` / `u32 as f64` widening is exact: the bit pattern
produced by `f64bitsOfInt` denotes exactly the integer, for every value
of the 32-bit range. -/
theorem f64bitsOfInt_exact (n : Int) (hlo : -(2 ^ 31) ≤ n) (hhi : n < 2 ^ 31 + 1) :
    f64val (f64bitsOfInt n) = some ((n : ℚ)) := by
  by_cases hn0 : n = 0
  · subst hn0
    have h0 : f64bitsOfInt 0 = 0 := by unfold f64bitsOfInt; rw [if_pos rfl]
    rw [h0]
    simp only [f64val]
    norm_num
  · have hm1 : 1 ≤ n.natAbs := by omega
    have hm31 : n.natAbs ≤ 2 ^ 31 := by omega
    set m := n.natAbs with hm
    set e := Nat.log 2 m with he
    have hpow_le : 2 ^ e ≤ m := Nat.pow_log_le_self 2 (by omega)
    have hlt_pow : m < 2 ^ (e + 1) := Nat.lt_pow_succ_log_self (by norm_num) m
    have he31 : e ≤ 31 := by
      by_contra hcon
      push_neg at hcon
      have : (2 : Nat) ^ 32 ≤ 2 ^ e := Nat.pow_le_pow_right (by norm_num) (by omega)
      have h2 : (2 : Nat) ^ 31 < 2 ^ 32 := by norm_num
      omega
    set rv := m * 2 ^ (52 - e) with hrv
    have hrv_lo : 2 ^ 52 ≤ rv := by
      rw [hrv]
      calc (2 : Nat) ^ 52 = 2 ^ e * 2 ^ (52 - e) := by
            rw [← pow_add]
            congr 1
            omega
        _ ≤ m * 2 ^ (52 - e) := Nat.mul_le_mul_right _ hpow_le
    have hrv_hi : rv < 2 ^ 53 := by
      rw [hrv]
      calc m * 2 ^ (52 - e) < 2 ^ (e + 1) * 2 ^ (52 - e) :=
            (Nat.mul_lt_mul_right (Nat.pos_pow_of_pos _ (by norm_num))).mpr hlt_pow
        _ = 2 ^ 53 := by
            rw [← pow_add]
            congr 1
            omega
    set s : Nat := if n < 0 then 1 else 0 with hs
    have hs01 : s ≤ 1 := by
      rw [hs]
      split <;> omega
    have hbits : f64bitsOfInt n =
        s * 2 ^ 63 + (e + 1023) * 2 ^ 52 + (rv - 2 ^ 52) := by
      unfold f64bitsOfInt
      rw [if_neg hn0]
    rw [hbits,
      f64val_fields s (e + 1023) (rv - 2 ^ 52) hs01 (by omega) (by omega) (by omega)]
    have hcl : (2 ^ 52 + (rv - 2 ^ 52) : Nat) = rv := by omega
    rw [hcl]
    have hzsplit : ((rv : Nat) : ℚ) = (m : ℚ) * (2 : ℚ) ^ ((52 - e : Nat) : ℤ) := by
      rw [hrv]
      push_cast
      rw [zpow_natCast]
    have hzpow : (2 : ℚ) ^ ((52 - e : Nat) : ℤ) * (2 : ℚ) ^ (((e + 1023 : Nat) : ℤ) - 1075) =
        1 := by
      rw [← zpow_add₀ (by norm_num : (2 : ℚ) ≠ 0)]
      have : ((52 - e : Nat) : ℤ) + (((e + 1023 : Nat) : ℤ) - 1075) = 0 := by omega
      rw [this, zpow_zero]
    have hmag : ((rv : Nat) : ℚ) * (2 : ℚ) ^ (((e + 1023 : Nat) : ℤ) - 1075) = (m : ℚ) := by
      rw [hzsplit, mul_assoc, hzpow, mul_one]
    rw [hmag]
    by_cases hneg : n < 0
    · have hs1 : s = 1 := by rw [hs, if_pos hneg]
      rw [if_pos hs1]
      have hzi : n = -(m : ℤ) := by omega
      exact congrArg some (by rw [hzi]; push_cast; ring)
    · have hs0 : ¬(s = 1) := by rw [hs, if_neg hneg]; omega
      rw [if_neg hs0]
      have hzi : n = (m : ℤ) := by omega
      exact congrArg some (by rw [hzi]; push_cast; ring)


/-- C6: RTDE round-trip — for every recipe whose type tags come from
{VECTOR6D, DOUBLE, INT32, UINT32} (with distinct variable names and
well-formed machine values) and every recipe id, encoding the values
big-endian into a DataPackage frame (`u16_be` length counting the 3-byte
header, type byte 85, recipe-id byte, concatenated field bodies) and
decoding via `read_data_package` / `parse_data_package` yields the
original typed values bit-for-bit, with `INT32` and `UINT32` widened
exactly to `f64` in length-1 vectors (the widening bit pattern denotes
precisely the original integer). -/
theorem rtde_round_trip (recipe : List (Str × RTDEValue)) (recipeId : Nat)
    (hwf : ∀ p ∈ recipe, wfValue p.2)
    (hnd : (recipe.map Prod.fst).Nodup)
    (hsize : (recipeId :: encodeFieldsBody (recipe.map Prod.snd)).length + 3 < 2 ^ 16) :
    read_data_package (recipe.map Prod.fst) (recipe.map (fun p => typeTag p.2))
        (encodeFrame recipeId (recipe.map Prod.snd)) =
      some (recipe.map (fun p => (p.1, widenValue p.2))) ∧
    (∀ n : Int, -(2 ^ 31) ≤ n → n < 2 ^ 31 →
      f64val (f64bitsOfInt n) = some ((n : ℚ))) := by
  constructor
  · unfold read_data_package
    rw [receiveMessage_encodeFrame recipeId (recipe.map Prod.snd) hsize]
    dsimp only
    rw [if_pos rfl]
    unfold parse_data_package
    rw [parseDataFields_encode recipe [] hwf,
      foldl_upsert_eq_map recipe [] hnd (by intro p hp; simp)]
    simp
  · intro n hlo hhi
    exact f64bitsOfInt_exact n hlo (by omega)

theorem rtde_round_trip_witness :
    read_data_package
        (([(['a'], RTDEValue.int32 (-2)), (['b'], RTDEValue.uint32 3)]).map Prod.fst)
        (([(['a'], RTDEValue.int32 (-2)), (['b'], RTDEValue.uint32 3)]).map
          (fun p => typeTag p.2))
        (encodeFrame 1
          (([(['a'], RTDEValue.int32 (-2)), (['b'], RTDEValue.uint32 3)]).map Prod.snd)) =
      some (([(['a'], RTDEValue.int32 (-2)), (['b'], RTDEValue.uint32 3)]).map
        (fun p => (p.1, widenValue p.2))) ∧
    (∀ n : Int, -(2 ^ 31) ≤ n → n < 2 ^ 31 →
      f64val (f64bitsOfInt n) = some ((n : ℚ))) :=
  rtde_round_trip [(['a'], RTDEValue.int32 (-2)), (['b'], RTDEValue.uint32 3)] 1
    (by decide) (by decide) (by decide)


/-! ## The `@halt` control verb (`src/block_executor.rs`,
`src/controller.rs`)

`BlockExecutor::execute_command` dispatches `@halt` to
`handle_halt_command`, whose body is only `periodic_clear()` ("Halt is
essentially the same as clear"): it talks exclusively to the
interpreter socket (`statelastinterpreted`, the executed-id polls of
`wait_for_completion`, `clear_interpreter()`) and never writes to the
primary socket, never stores the emergency-abort flag and never changes
the controller state.  The primary-socket `halt\n` write, the abort
flag and the `Error("Emergency halted")` state live in
`RobotController::emergency_abort`, which is invoked from the
shutdown-signal path, not from the `@halt` dispatch. -/

/-- Observable connection events: interpreter-socket writes
(`InterpreterClient::execute_command`) vs. primary-socket writes
(`write_all`). -/
inductive HaltEv
  | interpSend (line : Str)
  | primarySend (bytes : Str)
deriving DecidableEq

/-- The shared state the two halt paths can touch: the interpreter's
`emergency_abort_signal` and the controller state (`some msg` models
`RobotState::Error(msg)`). -/
structure HaltSt where
  abortFlag : Bool
  errorState : Option Str
deriving DecidableEq

/-- One `InterpreterClient::execute_command` call: write the command
line to the interpreter socket and parse the next reply from the
oracle; `none` models a read failure or a reply-format error. -/
def interpExec (cmd : Str) (replies : List Str) :
    Option (CmdResult × List Str × List HaltEv) :=
  match replies with
  | [] => none
  | r :: rest =>
    match parseReply r with
    | some res => some (res, rest, [HaltEv.interpSend (cmd ++ ['\n'])])
    | none => none

/-- `BlockExecutor::periodic_clear`: query `statelastinterpreted`, wait
for that id to execute (interruptible; on interruption return without
clearing), then send `clear_interpreter()`. -/
def periodicClear (replies : List Str) (abort shutdown : Nat → Bool)
    (cursor : Nat → Nat) (fuel : Nat) : Option (List Str × List HaltEv) :=
  match interpExec "statelastinterpreted".toList replies with
  | none => none
  | some (res, rest, evs1) =>
    match waitForCompletion res.id abort shutdown cursor fuel with
    | none => none
    | some (completed, _) =>
      if completed then
        match interpExec "clear_interpreter()".toList rest with
        | none => none
        | some (_, rest2, evs2) => some (rest2, evs1 ++ evs2)
      else some (rest, evs1)

/-- `BlockExecutor::handle_halt_command`: its entire effect is
`periodic_clear()`; the executor state and the shared controller state
are untouched on both the success and the failure branch. -/
def handleHaltCommand (st : HaltSt) (replies : List Str)
    (abort shutdown : Nat → Bool) (cursor : Nat → Nat) (fuel : Nat) :
    Option (HaltSt × List Str × List HaltEv) :=
  match periodicClear replies abort shutdown cursor fuel with
  | none => none
  | some (rest, evs) => some (st, rest, evs)

/-- `BlockExecutor::execute_command` restricted to the arm relevant
here: require the `@` prefix, split the remainder on whitespace, and
dispatch the first word `halt` to `handle_halt_command` (`none` stands
for every other arm, none of which writes to the primary socket or
touches the shared state either). -/
def executeControlCommand (command : Str) (st : HaltSt) (replies : List Str)
    (abort shutdown : Nat → Bool) (cursor : Nat → Nat) (fuel : Nat) :
    Option (HaltSt × List Str × List HaltEv) :=
  if command.head? = some '@' then
    if (((command.drop 1).dropWhile isSpaceChar).takeWhile
        (fun c => ¬ isSpaceChar c)) = "halt".toList then
      handleHaltCommand st replies abort shutdown cursor fuel
    else none
  else none

/-- `RobotController::emergency_abort` (the shutdown path): when the
primary socket is up, write `halt\n` to it, raise the interpreter's
abort flag and set `RobotState::Error("Emergency halted")`; otherwise
fail. -/
def emergencyAbort (primaryUp : Bool) (st : HaltSt) :
    Option (HaltSt × List HaltEv) :=
  if primaryUp then
    some ({ abortFlag := true, errorState := some "Emergency halted".toList },
      [HaltEv.primarySend "halt\n".toList])
  else none

theorem interpExec_shape {cmd : Str} {replies : List Str}
    {out : CmdResult × List Str × List HaltEv}
    (h : interpExec cmd replies = some out) :
    out.2.2 = [HaltEv.interpSend (cmd ++ ['\n'])] := by
  cases replies with
  | nil => simp [interpExec] at h
  | cons r rest =>
    unfold interpExec at h
    dsimp only at h
    cases hp : parseReply r with
    | none => rw [hp] at h; simp at h
    | some res =>
      rw [hp] at h
      dsimp only at h
      cases h
      rfl

theorem periodicClear_events {replies : List Str} {abort shutdown : Nat → Bool}
    {cursor : Nat → Nat} {fuel : Nat} {out : List Str × List HaltEv}
    (h : periodicClear replies abort shutdown cursor fuel = some out) :
    ∀ ev ∈ out.2, ∃ line, ev = HaltEv.interpSend line := by
  unfold periodicClear at h
  cases h1 : interpExec "statelastinterpreted".toList replies with
  | none => rw [h1] at h; simp at h
  | some o1 =>
    obtain ⟨res, rest, evs1⟩ := o1
    rw [h1] at h
    dsimp only at h
    cases h2 : waitForCompletion res.id abort shutdown cursor fuel with
    | none => rw [h2] at h; simp at h
    | some p =>
      obtain ⟨completed, t⟩ := p
      rw [h2] at h
      dsimp only at h
      cases completed with
      | false =>
        rw [if_neg (by simp)] at h
        cases h
        intro ev hev
        have hsh := interpExec_shape h1
        dsimp only at hsh
        rw [hsh] at hev
        rw [List.mem_singleton.mp hev]
        exact ⟨_, rfl⟩
      | true =>
        rw [if_pos rfl] at h
        cases h3 : interpExec "clear_interpreter()".toList rest with
        | none => rw [h3] at h; simp at h
        | some o2 =>
          obtain ⟨res2, rest2, evs2⟩ := o2
          rw [h3] at h
          dsimp only at h
          cases h
          intro ev hev
          rw [List.mem_append] at hev
          rcases hev with hev | hev
          · have hsh := interpExec_shape h1
            dsimp only at hsh
            rw [hsh] at hev
            rw [List.mem_singleton.mp hev]
            exact ⟨_, rfl⟩
          · have := interpExec_shape h3
            dsimp only at this
            rw [this] at hev
            rw [List.mem_singleton.mp hev]
            exact ⟨_, rfl⟩

/-- C1 (counterexample to the claim as stated): a complete, successful
`@halt` dispatch — reply oracle `["ack: 5", "ack: 7"]`, the robot's
executed-id cursor already at 5 — whose entire event trace is the two
interpreter writes of the auto-clear protocol: the bytes `halt\n` are
never written to the primary socket, the emergency-abort flag stays
`false` and the controller state stays non-Error. -/
theorem halt_verb_counterexample :
    executeControlCommand "@halt".toList ⟨false, none⟩
        ["ack: 5".toList, "ack: 7".toList] (fun _ => false) (fun _ => false)
        (fun _ => 5) 2 =
      some (⟨false, none⟩, [],
        [HaltEv.interpSend "statelastinterpreted\n".toList,
         HaltEv.interpSend "clear_interpreter()\n".toList]) ∧
    (HaltEv.primarySend "halt\n".toList ∉
      [HaltEv.interpSend "statelastinterpreted\n".toList,
       HaltEv.interpSend "clear_interpreter()\n".toList]) := by
  constructor
  · rfl
  · decide

/-- C1 (amended): executing `@halt` through
`BlockExecutor::execute_command` / `handle_halt_command` runs the
auto-clear protocol and nothing else — every event it emits is an
interpreter-socket write (no `halt\n` on the primary socket), and the
emergency-abort flag and controller state are returned unchanged; the
primary-socket `halt\n` write, the abort flag and the
`Error("Emergency halted")` state are the effect of
`RobotController::emergency_abort`, which the shutdown path invokes. -/
theorem halt_verb_amended (command : Str) (st : HaltSt) (replies : List Str)
    (abort shutdown : Nat → Bool) (cursor : Nat → Nat) (fuel : Nat)
    (out : HaltSt × List Str × List HaltEv)
    (h : executeControlCommand command st replies abort shutdown cursor fuel =
      some out) :
    out.1 = st ∧ (∀ ev ∈ out.2.2, ∃ line, ev = HaltEv.interpSend line) ∧
    (∀ st' : HaltSt, emergencyAbort true st' =
      some ({ abortFlag := true, errorState := some "Emergency halted".toList },
        [HaltEv.primarySend "halt\n".toList])) := by
  unfold executeControlCommand at h
  by_cases h1 : command.head? = some '@'
  · rw [if_pos h1] at h
    by_cases h2 : (((command.drop 1).dropWhile isSpaceChar).takeWhile
        (fun c => ¬ isSpaceChar c)) = "halt".toList
    · rw [if_pos h2] at h
      unfold handleHaltCommand at h
      cases h3 : periodicClear replies abort shutdown cursor fuel with
      | none => rw [h3] at h; simp at h
      | some o =>
        obtain ⟨rest, evs⟩ := o
        rw [h3] at h
        dsimp only at h
        cases h
        refine ⟨rfl, ?_, fun st' => rfl⟩
        exact periodicClear_events h3
    · rw [if_neg h2] at h
      simp at h
  · rw [if_neg h1] at h
    simp at h

theorem halt_verb_amended_witness :
    ((⟨false, none⟩, ([] : List Str),
        [HaltEv.interpSend "statelastinterpreted\n".toList,
         HaltEv.interpSend "clear_interpreter()\n".toList]) :
      HaltSt × List Str × List HaltEv).1 = (⟨false, none⟩ : HaltSt) ∧
    (∀ ev ∈ ((⟨false, none⟩, ([] : List Str),
        [HaltEv.interpSend "statelastinterpreted\n".toList,
         HaltEv.interpSend "clear_interpreter()\n".toList]) :
      HaltSt × List Str × List HaltEv).2.2, ∃ line, ev = HaltEv.interpSend line) ∧
    (∀ st' : HaltSt, emergencyAbort true st' =
      some ({ abortFlag := true, errorState := some "Emergency halted".toList },
        [HaltEv.primarySend "halt\n".toList])) :=
  halt_verb_amended "@halt".toList ⟨false, none⟩
    ["ack: 5".toList, "ack: 7".toList] (fun _ => false) (fun _ => false)
    (fun _ => 5) 2
    (⟨false, none⟩, [],
      [HaltEv.interpSend "statelastinterpreted\n".toList,
       HaltEv.interpSend "clear_interpreter()\n".toList]) (by rfl)

end Urd
